import Mathlib

/-!
# Verification of the httpbin-hono request/response core

A shallow embedding, in Lean 4, of the request-normalization and
response-inspection core of the httpbin-hono service, together with proofs
about the embedded definitions.

Modelling conventions:

* JS strings are `List Char` (Unicode code points; the strings handled by the
  code never contain lone surrogates).
* Raw byte sequences are `List Nat`, each element `< 256`.
* JS numbers are modelled exactly: a finite double is a decimal rational
  (`DecTen`, a mantissa/10^exponent pair — every IEEE double with a finite
  binary expansion is such a rational), and `JNum` adds `NaN` and the two
  infinities with the IEEE comparison/arithmetic rules the code relies on.
  Rounding of doubles is not modelled (all quantities in the verified claims
  are small integers or short decimal literals, where doubles are exact).
* Platform functions (`TextDecoder`, `btoa`/`atob`, `URLSearchParams`,
  `parseInt`/`parseFloat`, `String.prototype.trim`/`split`) are modelled from
  their WHATWG/ECMAScript specifications, since the source calls them.
* `Math.random()` is made an explicit parameter `r` (the draw in `[0,1)`).
-/

/-! ## JS string primitives -/

/-- ECMAScript WhiteSpace ∪ LineTerminator (the set used by
`String.prototype.trim`, by `parseInt`/`parseFloat` prefix skipping, and by
the regexp class `\s`). -/
def jsWs (c : Char) : Bool :=
  c.toNat = 32 ∨ c.toNat = 9 ∨ c.toNat = 10 ∨ c.toNat = 11 ∨ c.toNat = 12 ∨
  c.toNat = 13 ∨ c.toNat = 0xA0 ∨ c.toNat = 0x1680 ∨
  (0x2000 ≤ c.toNat ∧ c.toNat ≤ 0x200A) ∨ c.toNat = 0x2028 ∨
  c.toNat = 0x2029 ∨ c.toNat = 0x202F ∨ c.toNat = 0x205F ∨
  c.toNat = 0x3000 ∨ c.toNat = 0xFEFF

/-- Drop leading JS whitespace. -/
def trimL (s : List Char) : List Char := s.dropWhile jsWs

/-- Drop trailing JS whitespace. -/
def trimR (s : List Char) : List Char := (s.reverse.dropWhile jsWs).reverse

/-- The JS method on strings named trim (`String.prototype.trim`). -/
def jsTrim (s : List Char) : List Char := trimR (trimL s)

/-- JS string split (`String.prototype.split`) with a single-character separator (no limit):
`"".split(sep)` is `[""]`, empty segments are kept. -/
def splitOnC (sep : Char) : List Char → List (List Char)
  | [] => [[]]
  | c :: rest =>
    let r := splitOnC sep rest
    if c = sep then [] :: r
    else
      match r with
      | [] => [[c]]
      | h :: t => (c :: h) :: t

/-- JS substring test (`String.prototype.includes`) for a single character. -/
def containsChar (s : List Char) (c : Char) : Bool := s.contains c

/-- JS substring test (`String.prototype.includes`, substring search). -/
def containsSub : List Char → List Char → Bool
  | l, sub =>
    sub.isPrefixOf l ||
      match l with
      | [] => false
      | _ :: t => containsSub t sub

/-- JS lower-casing (`String.prototype.toLowerCase`), restricted to the ASCII simple case
mappings (no Unicode code point outside ASCII lower-cases to an ASCII letter
of `"true"`, which is the only comparison the source performs on a lowered
string). -/
def lowerAscii (c : Char) : Char :=
  if 'A' ≤ c ∧ c ≤ 'Z' then Char.ofNat (c.toNat + 32) else c

def toLowerA (s : List Char) : List Char := s.map lowerAscii

/-! ## `parseInt` / number rendering -/

def isDigitC (c : Char) : Bool := 48 ≤ c.toNat ∧ c.toNat ≤ 57

def digitsToNat (ds : List Char) : Nat :=
  ds.foldl (fun a c => a * 10 + (c.toNat - 48)) 0

/-- The maximal digit prefix of `s`, as a number; `none` when there is no
digit (the `NaN` outcome). -/
def digitsVal (s : List Char) : Option Nat :=
  match s.takeWhile isDigitC with
  | [] => none
  | ds => some (digitsToNat ds)

/-- The part of `parseInt` after whitespace skipping: optional sign, then
the maximal digit prefix; `NaN` (here `none`) when no digit follows. -/
def parseIntCore (s : List Char) : Option Int :=
  match s with
  | '-' :: r => (digitsVal r).map (fun n => -(n : Int))
  | '+' :: r => (digitsVal r).map (fun n => (n : Int))
  | r => (digitsVal r).map (fun n => (n : Int))

/-- ECMAScript `parseInt(s, 10)`: skip leading whitespace, optional sign,
then the maximal digit prefix; `NaN` (here `none`) when no digit follows.
Doubles are modelled as exact integers (the verified claims only involve
values far below 2^53, where `parseInt` is exact). -/
def jsParseInt (s : List Char) : Option Int :=
  parseIntCore (s.dropWhile jsWs)

/-- JS number rendering (`Number.prototype.toString`) on an integral value (plain decimal; the
exponential rendering of magnitudes ≥ 1e21 is outside the verified inputs). -/
def intToChars (n : Int) : List Char := (toString n).data

/-! ## JS numbers: exact decimals, NaN and infinities -/

/-- A finite double, represented exactly as `m / 10 ^ e`. -/
structure DecTen where
  m : Int
  e : Nat
deriving DecidableEq, Repr

/-- The rational value of a `DecTen` (specification side only). -/
def DecTen.toRat (d : DecTen) : ℚ := d.m / 10 ^ d.e

def DecTen.add (a b : DecTen) : DecTen :=
  ⟨a.m * 10 ^ b.e + b.m * 10 ^ a.e, a.e + b.e⟩

def DecTen.mul (a b : DecTen) : DecTen := ⟨a.m * b.m, a.e + b.e⟩

/-- Comparison `a <= b` on finite doubles. -/
def DecTen.le (a b : DecTen) : Bool := a.m * 10 ^ b.e ≤ b.m * 10 ^ a.e

/-- A JS number: NaN, ±Infinity, or a finite (exact decimal) value. -/
inductive JNum where
  | nan : JNum
  | posInf : JNum
  | negInf : JNum
  | fin : DecTen → JNum
deriving DecidableEq, Repr

/-- IEEE addition on `JNum` (NaN propagates; `∞ + (-∞) = NaN`). -/
def JNum.add : JNum → JNum → JNum
  | .nan, _ => .nan
  | _, .nan => .nan
  | .posInf, .negInf => .nan
  | .negInf, .posInf => .nan
  | .posInf, _ => .posInf
  | _, .posInf => .posInf
  | .negInf, _ => .negInf
  | _, .negInf => .negInf
  | .fin a, .fin b => .fin (a.add b)

/-- IEEE multiplication on `JNum` (NaN propagates; `0 * ∞ = NaN`). -/
def JNum.mul : JNum → JNum → JNum
  | .nan, _ => .nan
  | _, .nan => .nan
  | .posInf, .posInf => .posInf
  | .posInf, .negInf => .negInf
  | .negInf, .posInf => .negInf
  | .negInf, .negInf => .posInf
  | .posInf, .fin b => if b.m = 0 then .nan else if 0 < b.m then .posInf else .negInf
  | .fin a, .posInf => if a.m = 0 then .nan else if 0 < a.m then .posInf else .negInf
  | .negInf, .fin b => if b.m = 0 then .nan else if 0 < b.m then .negInf else .posInf
  | .fin a, .negInf => if a.m = 0 then .nan else if 0 < a.m then .negInf else .posInf
  | .fin a, .fin b => .fin (a.mul b)

/-- IEEE `<=` on `JNum`: any comparison with NaN is false. -/
def JNum.le : JNum → JNum → Bool
  | .nan, _ => false
  | _, .nan => false
  | .negInf, _ => true
  | _, .posInf => true
  | .posInf, _ => false
  | _, .negInf => false
  | .fin a, .fin b => a.le b

/-- Negation (for the sign of a parsed float). -/
def JNum.neg : JNum → JNum
  | .nan => .nan
  | .posInf => .negInf
  | .negInf => .posInf
  | .fin a => .fin ⟨-a.m, a.e⟩

/-! ## `parseFloat` -/

/-- Decimal literal prefix: `digits [. digits]` or `. digits`, as an exact
decimal; `none` when there is no digit. Returns the remaining input as well
(for the optional exponent). -/
def decLit (s : List Char) : Option (DecTen × List Char) :=
  let intDigs := s.takeWhile isDigitC
  let r1 := s.drop intDigs.length
  let fracDigs :=
    match r1 with
    | '.' :: r' => r'.takeWhile isDigitC
    | _ => []
  let r2 :=
    match r1 with
    | '.' :: r' => r'.drop fracDigs.length
    | _ => r1
  if intDigs.isEmpty ∧ fracDigs.isEmpty then none
  else
    some (⟨(digitsToNat intDigs : Int) * 10 ^ fracDigs.length +
            (digitsToNat fracDigs : Int), fracDigs.length⟩, r2)

/-- Optional exponent part `e/E [sign] digits`; not consumed when no digit
follows (ECMAScript takes the longest valid literal prefix). -/
def expPart (s : List Char) : Option Int :=
  match s with
  | c :: rest =>
    if c = 'e' ∨ c = 'E' then
      match rest with
      | '-' :: rr => (digitsVal rr).map (fun n => -(n : Int))
      | '+' :: rr => (digitsVal rr).map (fun n => (n : Int))
      | rr => (digitsVal rr).map (fun n => (n : Int))
    else none
  | [] => none

def applyExp (d : DecTen) (ex : Int) : DecTen :=
  if 0 ≤ ex then ⟨d.m * 10 ^ ex.toNat, d.e⟩ else ⟨d.m, d.e + ex.natAbs⟩

/-- Unsigned part of `parseFloat`: `Infinity` or a decimal literal with an
optional exponent. -/
def parseFloatMag (s : List Char) : JNum :=
  if ("Infinity".data).isPrefixOf s then .posInf
  else
    match decLit s with
    | none => .nan
    | some (d, rest) =>
      match expPart rest with
      | none => .fin d
      | some ex => .fin (applyExp d ex)

/-- ECMAScript `parseFloat`: skip whitespace, optional sign, longest valid
decimal literal prefix; `NaN` when none. -/
def jsParseFloat (s : List Char) : JNum :=
  match s.dropWhile jsWs with
  | '-' :: r => (parseFloatMag r).neg
  | '+' :: r => parseFloatMag r
  | r => parseFloatMag r

/-! ## UTF-8 (WHATWG `TextDecoder`) -/

/-- A UTF-8 continuation byte. -/
def contB (b : Nat) : Bool := 0x80 ≤ b ∧ b ≤ 0xBF

/-- Remove a leading UTF-8 byte-order mark, as a `TextDecoder` constructed
with `ignoreBOM: false` does. -/
def stripBOM : List Nat → List Nat
  | 0xEF :: 0xBB :: 0xBF :: rest => rest
  | l => l

/-- Strict UTF-8 decoding (`TextDecoder` with `fatal: true`), after BOM
handling: `none` on any ill-formed input (overlong forms, surrogates and
values above U+10FFFF are rejected by the lead/continuation ranges). -/
def utf8DecodeAux : List Nat → Option (List Nat)
  | [] => some []
  | b :: rest =>
    if b < 0x80 then (utf8DecodeAux rest).map (b :: ·)
    else if 0xC2 ≤ b ∧ b ≤ 0xDF then
      match rest with
      | c1 :: r =>
        if contB c1 then
          (utf8DecodeAux r).map (((b - 0xC0) * 0x40 + (c1 - 0x80)) :: ·)
        else none
      | [] => none
    else if 0xE0 ≤ b ∧ b ≤ 0xEF then
      match rest with
      | c1 :: c2 :: r =>
        let lo1 := if b = 0xE0 then 0xA0 else 0x80
        let hi1 := if b = 0xED then 0x9F else 0xBF
        if (lo1 ≤ c1 ∧ c1 ≤ hi1) ∧ contB c2 then
          (utf8DecodeAux r).map
            (((b - 0xE0) * 0x1000 + (c1 - 0x80) * 0x40 + (c2 - 0x80)) :: ·)
        else none
      | _ => none
    else if 0xF0 ≤ b ∧ b ≤ 0xF4 then
      match rest with
      | c1 :: c2 :: c3 :: r =>
        let lo1 := if b = 0xF0 then 0x90 else 0x80
        let hi1 := if b = 0xF4 then 0x8F else 0xBF
        if (lo1 ≤ c1 ∧ c1 ≤ hi1) ∧ contB c2 ∧ contB c3 then
          (utf8DecodeAux r).map
            (((b - 0xF0) * 0x40000 + (c1 - 0x80) * 0x1000 +
              (c2 - 0x80) * 0x40 + (c3 - 0x80)) :: ·)
        else none
      | _ => none
    else none

/-- Strict UTF-8 decoding of a byte sequence into code points
(`new TextDecoder("utf-8", { fatal: true, ignoreBOM: false })`). -/
def utf8Decode (bytes : List Nat) : Option (List Char) :=
  (utf8DecodeAux (stripBOM bytes)).map (·.map Char.ofNat)

/-- Replacement-mode UTF-8 decoding after BOM handling (`TextDecoder` with
`fatal: false`): each maximal ill-formed subpart becomes one U+FFFD, with the
offending byte reconsumed as the WHATWG decode algorithm prescribes. -/
def utf8LossyAux : List Nat → List Nat
  | [] => []
  | b :: rest =>
    if b < 0x80 then b :: utf8LossyAux rest
    else if 0xC2 ≤ b ∧ b ≤ 0xDF then
      match rest with
      | c1 :: r =>
        if contB c1 then ((b - 0xC0) * 0x40 + (c1 - 0x80)) :: utf8LossyAux r
        else 0xFFFD :: utf8LossyAux (c1 :: r)
      | [] => [0xFFFD]
    else if 0xE0 ≤ b ∧ b ≤ 0xEF then
      match rest with
      | c1 :: r =>
        let lo1 := if b = 0xE0 then 0xA0 else 0x80
        let hi1 := if b = 0xED then 0x9F else 0xBF
        if lo1 ≤ c1 ∧ c1 ≤ hi1 then
          match r with
          | c2 :: r2 =>
            if contB c2 then
              ((b - 0xE0) * 0x1000 + (c1 - 0x80) * 0x40 + (c2 - 0x80)) ::
                utf8LossyAux r2
            else 0xFFFD :: utf8LossyAux (c2 :: r2)
          | [] => [0xFFFD]
        else 0xFFFD :: utf8LossyAux (c1 :: r)
      | [] => [0xFFFD]
    else if 0xF0 ≤ b ∧ b ≤ 0xF4 then
      match rest with
      | c1 :: r =>
        let lo1 := if b = 0xF0 then 0x90 else 0x80
        let hi1 := if b = 0xF4 then 0x8F else 0xBF
        if lo1 ≤ c1 ∧ c1 ≤ hi1 then
          match r with
          | c2 :: r2 =>
            if contB c2 then
              match r2 with
              | c3 :: r3 =>
                if contB c3 then
                  ((b - 0xF0) * 0x40000 + (c1 - 0x80) * 0x1000 +
                    (c2 - 0x80) * 0x40 + (c3 - 0x80)) :: utf8LossyAux r3
                else 0xFFFD :: utf8LossyAux (c3 :: r3)
              | [] => [0xFFFD]
            else 0xFFFD :: utf8LossyAux (c2 :: r2)
          | [] => [0xFFFD]
        else 0xFFFD :: utf8LossyAux (c1 :: r)
      | [] => [0xFFFD]
    else 0xFFFD :: utf8LossyAux rest

/-- Replacement-mode UTF-8 decoding into code points
(`new TextDecoder("utf-8", { fatal: false, ignoreBOM: false })`, which never
throws). -/
def utf8Lossy (bytes : List Nat) : List Char :=
  (utf8LossyAux (stripBOM bytes)).map Char.ofNat

/-- UTF-8 encoding of one code point (for the byte serialization of strings
fed to the urlencoded parser). -/
def utf8EncodeCp (n : Nat) : List Nat :=
  if n < 0x80 then [n]
  else if n < 0x800 then [0xC0 + n / 0x40, 0x80 + n % 0x40]
  else if n < 0x10000 then
    [0xE0 + n / 0x1000, 0x80 + n / 0x40 % 0x40, 0x80 + n % 0x40]
  else
    [0xF0 + n / 0x40000, 0x80 + n / 0x1000 % 0x40, 0x80 + n / 0x40 % 0x40,
      0x80 + n % 0x40]

def utf8Encode (s : List Char) : List Nat := s.flatMap (fun c => utf8EncodeCp c.toNat)

/-! ## base64 (`btoa` / `atob`) -/

def b64Alphabet : List Char :=
  "ABCDEFGHIJKLMNOPQRSTUVWXYZabcdefghijklmnopqrstuvwxyz0123456789+/".data

/-- Character for a 6-bit group. -/
def b64Char (k : Nat) : Char := b64Alphabet.getD k 'A'

/-- Index of a base64 character (`none` for a character outside the
alphabet). -/
def b64Val (c : Char) : Option Nat := b64Alphabet.indexOf? c

/-- The `btoa` encoding of a byte sequence: standard base64 with `=` padding. (The source
builds the intermediate "binary string" from the bytes in 8192-byte chunks;
string concatenation makes that identical to a single pass.) -/
def base64Encode : List Nat → List Char
  | [] => []
  | [b1] => [b64Char (b1 / 4), b64Char (b1 % 4 * 16), '=', '=']
  | [b1, b2] =>
    [b64Char (b1 / 4), b64Char (b1 % 4 * 16 + b2 / 16), b64Char (b2 % 16 * 4), '=']
  | b1 :: b2 :: b3 :: rest =>
    b64Char (b1 / 4) :: b64Char (b1 % 4 * 16 + b2 / 16) ::
      b64Char (b2 % 16 * 4 + b3 / 64) :: b64Char (b3 % 64) :: base64Encode rest

/-- Canonical inverse of `base64Encode`, used to state the round-trip
property of the data-URI fallback (specification side; the source itself
only encodes). -/
def base64Decode : List Char → Option (List Nat)
  | [] => some []
  | c1 :: c2 :: c3 :: c4 :: rest =>
    match b64Val c1, b64Val c2 with
    | some v1, some v2 =>
      if c3 = '=' ∧ c4 = '=' ∧ rest = [] then some [v1 * 4 + v2 / 16]
      else if c4 = '=' ∧ rest = [] then
        match b64Val c3 with
        | some v3 => some [v1 * 4 + v2 / 16, v2 % 16 * 16 + v3 / 4]
        | none => none
      else
        match b64Val c3, b64Val c4 with
        | some v3, some v4 =>
          (base64Decode rest).map
            (fun bs => (v1 * 4 + v2 / 16) :: (v2 % 16 * 16 + v3 / 4) ::
              (v3 % 4 * 64 + v4) :: bs)
        | _, _ => none
    | _, _ => none
  | _ => none

/-- ASCII whitespace as removed by forgiving-base64 (`atob`). -/
def asciiWsB (c : Char) : Bool :=
  c.toNat = 9 ∨ c.toNat = 10 ∨ c.toNat = 12 ∨ c.toNat = 13 ∨ c.toNat = 32

/-- Strip up to two trailing `=` when the length is a multiple of four
(forgiving-base64 step 2). -/
def b64StripPad (l : List Char) : List Char :=
  if l.length % 4 = 0 then
    match l.reverse with
    | '=' :: '=' :: r => r.reverse
    | '=' :: r => r.reverse
    | _ => l
  else l

/-- Map base64 characters to their 6-bit groups; `none` on a character
outside the alphabet. -/
def b64Vals : List Char → Option (List Nat)
  | [] => some []
  | c :: r =>
    match b64Val c, b64Vals r with
    | some v, some vs => some (v :: vs)
    | _, _ => none

/-- Reassemble bytes from 6-bit groups; a leftover length of 1 is an error,
leftover lengths 2 and 3 yield 1 and 2 bytes with the spare bits discarded
(forgiving-base64). -/
def b64Group : List Nat → Option (List Nat)
  | [] => some []
  | [_] => none
  | [v1, v2] => some [v1 * 4 + v2 / 16]
  | [v1, v2, v3] => some [v1 * 4 + v2 / 16, v2 % 16 * 16 + v3 / 4]
  | v1 :: v2 :: v3 :: v4 :: rest =>
    (b64Group rest).map
      (fun bs => (v1 * 4 + v2 / 16) :: (v2 % 16 * 16 + v3 / 4) ::
        (v3 % 4 * 64 + v4) :: bs)

/-- WHATWG `atob` (forgiving-base64 decode), producing a binary string whose
code points are the decoded bytes; `none` models the thrown
`InvalidCharacterError`. -/
def atob (s : List Char) : Option (List Char) :=
  let t := b64StripPad (s.filter (fun c => !asciiWsB c))
  match b64Vals t with
  | none => none
  | some vs => (b64Group vs).map (·.map Char.ofNat)

/-! ## `jsonSafe` (src/utils/request.ts) -/

/-- The argument of `jsonSafe`: a JS string, or binary data (`Uint8Array` and
`ArrayBuffer` are identified — the source immediately views an `ArrayBuffer`
as a `Uint8Array`). -/
inductive RawBody where
  | str : List Char → RawBody
  | bytes : List Nat → RawBody

def defaultCT : List Char := "application/octet-stream".data

/-- The RFC 2397 fallback: `data:{contentType};base64,{base64}`. -/
def dataUri (contentType : List Char) (b : List Nat) : List Char :=
  "data:".data ++ contentType ++ ";base64,".data ++ base64Encode b

/-- Model of `jsonSafe` from `src/utils/request.ts`. A string argument is returned
unmodified (`JSON.stringify` never throws on a string, so the catch branch is
dead). Binary data is decoded strictly as UTF-8; on success the decoded text
is returned (again `JSON.stringify` cannot throw), otherwise the bytes are
base64-encoded into a data URI. -/
def jsonSafe (data : RawBody) (contentType : List Char) : List Char :=
  match data with
  | .str s => s
  | .bytes b =>
    match utf8Decode b with
    | some s => s
    | none => dataUri contentType b

/-! ## A model of `JSON.parse` acceptance

The normalizer only ever exposes whether `JSON.parse` succeeded (the `json`
field is the parsed value on success and `null` on failure); we model it by
a JSON grammar validator and keep the accepted text. -/

def jsonWsC (c : Char) : Bool :=
  c = ' ' ∨ c.toNat = 9 ∨ c.toNat = 10 ∨ c.toNat = 13

def isHexC (c : Char) : Bool :=
  isDigitC c ∨ ('a' ≤ c ∧ c ≤ 'f') ∨ ('A' ≤ c ∧ c ≤ 'F')

/-- JSON string body after the opening quote; returns the input after the
closing quote. -/
def jsonString : List Char → Option (List Char)
  | [] => none
  | c :: r =>
    if c = '"' then some r
    else if c = '\\' then
      match r with
      | e :: r2 =>
        if e = '"' ∨ e = '\\' ∨ e = '/' ∨ e = 'b' ∨ e = 'f' ∨ e = 'n' ∨
            e = 'r' ∨ e = 't' then jsonString r2
        else if e = 'u' then
          match r2 with
          | h1 :: h2 :: h3 :: h4 :: r3 =>
            if isHexC h1 ∧ isHexC h2 ∧ isHexC h3 ∧ isHexC h4 then jsonString r3
            else none
          | _ => none
        else none
      | [] => none
    else if c.toNat < 0x20 then none
    else jsonString r

/-- Fraction part `. digits` (optional; `none` only when a `.` is not
followed by a digit). -/
def jsonFrac : List Char → Option (List Char)
  | '.' :: r =>
    match r.takeWhile isDigitC with
    | [] => none
    | ds => some (r.drop ds.length)
  | s => some s

/-- Exponent part `e|E [sign] digits` (optional). -/
def jsonExp : List Char → Option (List Char)
  | c :: r =>
    if c = 'e' ∨ c = 'E' then
      let r1 := match r with
        | '+' :: rr => rr
        | '-' :: rr => rr
        | rr => rr
      match r1.takeWhile isDigitC with
      | [] => none
      | ds => some (r1.drop ds.length)
    else some (c :: r)
  | [] => some []

/-- JSON number: `-? (0 | [1-9][0-9]*) frac? exp?`. -/
def jsonNumber (s : List Char) : Option (List Char) :=
  let s1 := match s with
    | '-' :: r => r
    | _ => s
  match s1 with
  | '0' :: r => (jsonFrac r).bind jsonExp
  | c :: r =>
    if isDigitC c then (jsonFrac (r.dropWhile isDigitC)).bind jsonExp
    else none
  | [] => none

/-- Parser mode: a value, or the continuation of an array / object after one
element. -/
inductive JMode where
  | value : JMode
  | arrayRest : JMode
  | objectRest : JMode

/-- Fuel-driven JSON validator; returns the unconsumed input. The fuel used
by `jsonAccepts` is large enough for every input the grammar accepts. -/
def jsonP : Nat → JMode → List Char → Option (List Char)
  | 0, _, _ => none
  | fuel + 1, .value, s0 =>
    let s := s0.dropWhile jsonWsC
    match s with
    | '{' :: r =>
      let r1 := r.dropWhile jsonWsC
      match r1 with
      | '}' :: r2 => some r2
      | '"' :: r2 => do
        let r3 ← jsonString r2
        match r3.dropWhile jsonWsC with
        | ':' :: r5 => do
          let r6 ← jsonP fuel .value r5
          jsonP fuel .objectRest r6
        | _ => none
      | _ => none
    | '[' :: r =>
      let r1 := r.dropWhile jsonWsC
      match r1 with
      | ']' :: r2 => some r2
      | _ => do
        let r2 ← jsonP fuel .value r1
        jsonP fuel .arrayRest r2
    | '"' :: r => jsonString r
    | 't' :: 'r' :: 'u' :: 'e' :: r => some r
    | 'f' :: 'a' :: 'l' :: 's' :: 'e' :: r => some r
    | 'n' :: 'u' :: 'l' :: 'l' :: r => some r
    | s' => jsonNumber s'
  | fuel + 1, .arrayRest, s0 =>
    let s := s0.dropWhile jsonWsC
    match s with
    | ']' :: r => some r
    | ',' :: r => do
      let r2 ← jsonP fuel .value r
      jsonP fuel .arrayRest r2
    | _ => none
  | fuel + 1, .objectRest, s0 =>
    let s := s0.dropWhile jsonWsC
    match s with
    | '}' :: r => some r
    | ',' :: r =>
      match r.dropWhile jsonWsC with
      | '"' :: r2 => do
        let r3 ← jsonString r2
        match r3.dropWhile jsonWsC with
        | ':' :: r5 => do
          let r6 ← jsonP fuel .value r5
          jsonP fuel .objectRest r6
        | _ => none
      | _ => none
    | _ => none

/-- Whether `JSON.parse` accepts the text. -/
def jsonAccepts (s : List Char) : Bool :=
  match jsonP (2 * s.length + 4) .value s with
  | some rest => (rest.dropWhile jsonWsC).isEmpty
  | none => false

/-! ## `application/x-www-form-urlencoded` (`URLSearchParams`) -/

/-- JS string split (`String.prototype.split`) on a single byte. -/
def splitOnB (sep : Nat) : List Nat → List (List Nat)
  | [] => [[]]
  | b :: rest =>
    let r := splitOnB sep rest
    if b = sep then [] :: r
    else
      match r with
      | [] => [[b]]
      | h :: t => (b :: h) :: t

def hexDigitVal (b : Nat) : Option Nat :=
  if 0x30 ≤ b ∧ b ≤ 0x39 then some (b - 0x30)
  else if 0x41 ≤ b ∧ b ≤ 0x46 then some (b - 0x41 + 10)
  else if 0x61 ≤ b ∧ b ≤ 0x66 then some (b - 0x61 + 10)
  else none

/-- Percent-decoding on bytes: `%HH` becomes a byte; a `%` not followed by
two hex digits is kept and decoding resumes at the next byte. (Structured
with explicit fuel — one unit per consumed byte, so `l.length` never runs
out — to keep the definition kernel-reducible.) -/
def pctDecodeF : Nat → List Nat → List Nat
  | 0, l => l
  | _, [] => []
  | fuel + 1, b :: r =>
    if b = 0x25 then
      match r with
      | h1 :: h2 :: r2 =>
        match hexDigitVal h1, hexDigitVal h2 with
        | some v1, some v2 => (v1 * 16 + v2) :: pctDecodeF fuel r2
        | _, _ => b :: pctDecodeF fuel r
      | _ => b :: pctDecodeF fuel r
    else b :: pctDecodeF fuel r

def pctDecode (l : List Nat) : List Nat := pctDecodeF l.length l

/-- The WHATWG urlencoded parser (`URLSearchParams`): strip one leading `?`,
UTF-8-serialize, split on `&` dropping empty sequences, split each sequence
on its first `=`, `+` to space, percent-decode, and UTF-8 decode each side in
replacement mode. -/
def formUrlDecode (s : List Char) : List (List Char × List Char) :=
  let s1 := match s with
    | '?' :: r => r
    | _ => s
  let seqs := (splitOnB 0x26 (utf8Encode s1)).filter (fun l => !l.isEmpty)
  seqs.map (fun seq =>
    let nb := seq.takeWhile (· ≠ 0x3D)
    let vb := (seq.dropWhile (· ≠ 0x3D)).drop 1
    let dec := fun (l : List Nat) =>
      utf8Lossy (pctDecode (l.map (fun b => if b = 0x2B then 0x20 else b)))
    (dec nb, dec vb))

/-- A form value: a scalar for a key seen once, a list for a repeated key. -/
inductive MultiVal where
  | one : List Char → MultiVal
  | many : List (List Char) → MultiVal
deriving DecidableEq, Repr

def MultiVal.push (v : MultiVal) (x : List Char) : MultiVal :=
  match v with
  | .one a => .many [a, x]
  | .many l => .many (l ++ [x])

/-- Insert a pair as the `params.forEach` loop of `parseFormData` does:
an existing key collects values in order, a new key is appended. -/
def formInsert (m : List (List Char × MultiVal)) (k x : List Char) :
    List (List Char × MultiVal) :=
  match m with
  | [] => [(k, .one x)]
  | (k', v) :: rest =>
    if k' = k then (k', v.push x) :: rest else (k', v) :: formInsert rest k x

def buildForm (pairs : List (List Char × List Char)) :
    List (List Char × MultiVal) :=
  pairs.foldl (fun m p => formInsert m p.1 p.2) []

/-- Model of `semiflatten` from `src/utils/request.ts`: a one-element list collapses
to its element. -/
def semiflatten (m : List (List Char × MultiVal)) :
    List (List Char × MultiVal) :=
  m.map (fun p =>
    match p.2 with
    | .many [x] => (p.1, .one x)
    | v => (p.1, v))

/-- Model of `parseFormData` from `src/utils/request.ts`: only an
`application/x-www-form-urlencoded` content type is parsed, anything else
yields `null`. -/
def parseFormData (rawData contentType : List Char) :
    Option (List (List Char × MultiVal)) :=
  if containsSub contentType "application/x-www-form-urlencoded".data then
    some (semiflatten (buildForm (formUrlDecode rawData)))
  else none

/-! ## The non-multipart body normalizer -/

/-- Model of `getRawDataFromContext` from `src/utils/request.ts`: the body bytes are
decoded with `new TextDecoder("utf-8", { fatal: false, ignoreBOM: false })`.
That decoder never throws, so the declared `Uint8Array` fallback is dead and
the result is always a string. -/
def getRawDataFromContext (bytes : List Nat) : List Char := utf8Lossy bytes

/-- The `{form, data, json}` result of `getRequestBodyData` on the
non-multipart path (the `files` field of that path is the constant empty
map and is omitted). The `json` field keeps the text accepted by
`JSON.parse`, `none` when parsing fails. -/
structure BodyDataOther where
  form : Option (List (List Char × MultiVal))
  data : List Char
  json : Option (List Char)
deriving DecidableEq, Repr

/-- Model of `getRequestBodyData` from `src/utils/request.ts`, non-multipart path
(lines 293–316): read the raw body, `jsonSafe` it into `data` (with the
default content type), parse `form` only for urlencoded content types, and
attempt `JSON.parse` for `json`. -/
def getRequestBodyData (contentType : List Char) (bytes : List Nat) :
    BodyDataOther :=
  let rawData := getRawDataFromContext bytes
  let data := jsonSafe (.str rawData) defaultCT
  let form := parseFormData rawData contentType
  let json := if jsonAccepts rawData then some rawData else none
  ⟨form, data, json⟩

/-! ## `/etag/:etag` (src/routes/response-inspection.ts) -/

/-- The capture of the regexp `\s*(W\/)?"?([^"]*)"?\s*` applied to one
comma-separated part: leading whitespace, an optional weak marker `W/` and an
optional opening quote are stripped; the capture is everything up to the next
quote (or the end). -/
def parsePart (part : List Char) : List Char :=
  let p1 := part.dropWhile jsWs
  let p2 := if ("W/".data).isPrefixOf p1 then p1.drop 2 else p1
  let p3 :=
    match p2 with
    | '"' :: r => r
    | _ => p2
  p3.takeWhile (· ≠ '"')

/-- Model of `parseMultiValueHeader` from `src/routes/response-inspection.ts`: a
missing or empty header yields `[]`; otherwise the header is split on commas
and every part contributes its regexp capture (the capture group always
participates, so no part is skipped). -/
def parseMultiValueHeader (headerStr : Option (List Char)) : List (List Char) :=
  match headerStr with
  | none => []
  | some [] => []
  | some s => (splitOnC ',' s).map parsePart

/-- The observable response of the `/etag/:etag` handler: status, the `ETag`
header if set, and whether the body is the standard JSON echo. -/
structure EtagResp where
  status : Nat
  etagHeader : Option (List Char)
  echoBody : Bool
deriving DecidableEq, Repr

/-- The `GET /etag/:etag` handler (lines 82–108): `If-None-Match` is
consulted first; only when it parses empty is `If-Match` consulted. -/
def etagGet (etag : List Char) (ifNoneMatch ifMatch : Option (List Char)) :
    EtagResp :=
  let inm := parseMultiValueHeader ifNoneMatch
  let im := parseMultiValueHeader ifMatch
  if inm.length > 0 then
    if etag ∈ inm ∨ "*".data ∈ inm then
      ⟨304, some ('"' :: etag ++ ['"']), false⟩
    else
      ⟨200, some ('"' :: etag ++ ['"']), true⟩
  else if im.length > 0 then
    if etag ∉ im ∧ "*".data ∉ im then
      ⟨412, none, false⟩
    else
      ⟨200, some ('"' :: etag ++ ['"']), true⟩
  else
    ⟨200, some ('"' :: etag ++ ['"']), true⟩

/-! ## `/status/:codes` (src/routes/response-inspection.ts) -/

/-- Cumulative weights, as the single loop of `weightedChoice` builds them
(`total += w; cumWeights.push(total)`). -/
def cumWeights (acc : JNum) : List JNum → List JNum
  | [] => []
  | w :: ws =>
    let t := acc.add w
    t :: cumWeights t ws

/-- Index of the first cumulative weight `c` with `x <= c` (the loop
`if (x <= cumWeights[j]) { i = j; break }`); `none` when no comparison
succeeds (then `i` keeps its initial value 0). -/
def firstLe (x : JNum) : List JNum → Option Nat
  | [] => none
  | c :: cs => if x.le c then some 0 else (firstLe x cs).map (· + 1)

/-- Model of `weightedChoice` from `src/routes/response-inspection.ts`, with the
`Math.random()` draw `r` made explicit: `x = r * total` and the first entry
whose cumulative weight is `>= x` is selected (index 0 when none is). -/
def weightedChoice (choices : List (Int × JNum)) (r : DecTen) : Int :=
  let values := choices.map Prod.fst
  let weights := choices.map Prod.snd
  let cums := cumWeights (.fin ⟨0, 0⟩) weights
  let total := cums.getLastD (.fin ⟨0, 0⟩)
  let x := (JNum.fin r).mul total
  let i := (firstLe x cums).getD 0
  values.getD i 0

/-- Response data of `createStatusCodeResponse`: the status, and the special
body/headers of the well-known codes. -/
structure StatusResp where
  status : Int
  body : Option (List Char)
  headers : List (List Char × List Char)
deriving DecidableEq, Repr

def redirectHeaders : List (List Char × List Char) :=
  [("Location".data, "/redirect/1".data)]

/-- Model of `createStatusCodeResponse` from `src/routes/response-inspection.ts`
(the 406 body is the serialized JSON message, the 418 body the teapot
ASCII art; their exact texts are abbreviated to their first line here as the
claims do not mention them). -/
def createStatusCodeResponse (code : Int) : StatusResp :=
  if code = 301 ∨ code = 302 ∨ code = 303 ∨ code = 305 ∨ code = 307 then
    ⟨code, none, redirectHeaders⟩
  else if code = 304 then ⟨code, some [], []⟩
  else if code = 401 then
    ⟨code, none, [("WWW-Authenticate".data, "Basic realm=\"Fake Realm\"".data)]⟩
  else if code = 402 then
    ⟨code, some "Fuck you, pay me!".data,
      [("x-more-info".data, "http://vimeo.com/22053820".data)]⟩
  else if code = 406 then
    ⟨code, some "application/json-message".data,
      [("Content-Type".data, "application/json".data)]⟩
  else if code = 407 then
    ⟨code, none, [("Proxy-Authenticate".data, "Basic realm=\"Fake Realm\"".data)]⟩
  else if code = 418 then
    ⟨code, some "-=[ teapot ]=-".data,
      [("x-more-info".data, "http://tools.ietf.org/html/rfc2324".data)]⟩
  else ⟨code, none, []⟩

/-- Outcome of `handleStatusCodes`: the invalid-input error, or the resolved
status code. -/
inductive StatusOutcome where
  | invalid : StatusOutcome
  | ok : Int → StatusOutcome
deriving DecidableEq, Repr

def StatusOutcome.isErr : StatusOutcome → Bool
  | .invalid => true
  | .ok _ => false

/-- One iteration of the entry loop of `handleStatusCodes`: split off the
code part (before the first `:`) and the weight (`parseFloat` of the part
after it, never validated; default 1), trim the code part, `parseInt` it and
require its rendering to reproduce the trimmed string. -/
def parseChoice1 (choice : List Char) : Option (Int × JNum) :=
  let codeStr :=
    if containsChar choice ':' then (splitOnC ':' choice).getD 0 []
    else choice
  let weight :=
    if containsChar choice ':' then jsParseFloat ((splitOnC ':' choice).getD 1 [])
    else .fin ⟨1, 0⟩
  let trimmed := jsTrim codeStr
  match jsParseInt trimmed with
  | none => none
  | some code =>
    if intToChars code = trimmed then some (code, weight) else none

/-- Parse the comma-separated entries into `(code, weight)` choices, failing
on the first entry whose code part does not round-trip through
`parseInt`/`toString`. -/
def parseChoices : List (List Char) → Option (List (Int × JNum))
  | [] => some []
  | choice :: rest =>
    match parseChoice1 choice with
    | none => none
    | some cw => (parseChoices rest).map (cw :: ·)

/-- Model of `handleStatusCodes` from `src/routes/response-inspection.ts`, with the
selection draw `r` explicit. A spec without a comma is one `parseInt` whose
rendering must equal the trimmed spec; otherwise every comma-separated entry
is validated and one code is selected by `weightedChoice`. -/
def handleStatusCodes (codes : List Char) (r : DecTen) : StatusOutcome :=
  if !containsChar codes ',' then
    match jsParseInt codes with
    | none => .invalid
    | some code =>
      if intToChars code = jsTrim codes then .ok code else .invalid
  else
    match parseChoices (splitOnC ',' codes) with
    | none => .invalid
    | some choices => .ok (weightedChoice choices r)

/-- Model of `statusCodeHandler`: an invalid spec is surfaced as a plain-text 400
`Invalid status code`, otherwise the `createStatusCodeResponse` data is
returned. -/
def statusCodeHandler (codes : List Char) (r : DecTen) : StatusResp :=
  match handleStatusCodes codes r with
  | .invalid => ⟨400, some "Invalid status code".data, []⟩
  | .ok code => createStatusCodeResponse code

/-! ## `/bearer` and `/basic-auth/:user/:passwd` (src/index.ts) -/

/-- Observable response of the authentication handlers. `exception` models a
thrown error that the handler does not catch (`atob` on bad base64). -/
inductive AuthResp where
  | challenge : List Char → AuthResp
  | okUser : List Char → AuthResp
  | okToken : List Char → AuthResp
  | exception : AuthResp
deriving DecidableEq, Repr

/-- The `GET /bearer` handler: 401 with `WWW-Authenticate: Bearer` unless the
header is present and starts with the 7 characters `Bearer `; otherwise 200
with the (possibly empty) remainder echoed as the token. -/
def bearerGet (auth : Option (List Char)) : AuthResp :=
  match auth with
  | none => .challenge "Bearer".data
  | some h =>
    if ("Bearer ".data).isPrefixOf h then .okToken (h.drop 7)
    else .challenge "Bearer".data

def basicChallenge : List Char := "Basic realm=\"Fake Realm\"".data

/-- The `GET /basic-auth/:user/:passwd` handler: 401 challenge unless the
header starts with `Basic `; the remainder is base64-decoded (`atob`, which
throws out of the handler on invalid input), split on every `:`, and the
first two components are compared with the path parameters. -/
def basicAuthGet (user passwd : List Char) (auth : Option (List Char)) :
    AuthResp :=
  match auth with
  | none => .challenge basicChallenge
  | some h =>
    if ("Basic ".data).isPrefixOf h then
      match atob (h.drop 6) with
      | none => .exception
      | some credentials =>
        let parts := splitOnC ':' credentials
        let providedUser := parts.getD 0 []
        let providedPasswd := parts.get? 1
        if providedUser ≠ user ∨ providedPasswd ≠ some passwd then
          .challenge basicChallenge
        else .okUser user
    else .challenge basicChallenge

/-! ## `/redirect/:n` (src/routes/redirects.ts) -/

/-- Observable response of the redirect handler: a 400 error, or a redirect
with status 302 to a relative path or to the absolute URL built from the
request host and a path. -/
inductive RedirResp where
  | badRequest : RedirResp
  | relative : List Char → RedirResp
  | absolute : List Char → RedirResp
deriving DecidableEq, Repr

/-- The `GET /redirect/:n` handler: `parseInt` of the path parameter, 400
when `NaN` or `< 1`; target `/get` when `n == 1`, else
`/absolute-redirect/{n-1}` or `/relative-redirect/{n-1}` by the `absolute`
query flag (`absolute` is set iff the query value lower-cases to `true`). -/
def redirectGet (nstr : List Char) (absoluteQ : Option (List Char)) :
    RedirResp :=
  match jsParseInt nstr with
  | none => .badRequest
  | some n =>
    if n < 1 then .badRequest
    else
      let absolute : Bool := match absoluteQ with
        | some q => toLowerA q == "true".data
        | none => false
      if n = 1 then
        if absolute then .absolute "/get".data else .relative "/get".data
      else
        if absolute then
          .absolute ("/absolute-redirect/".data ++ intToChars (n - 1))
        else
          .relative ("/relative-redirect/".data ++ intToChars (n - 1))

/-! ## `/bytes/:n` (src/routes/dynamic-data.ts) -/

/-- Observable response of the `/bytes/:n` handler: a 400 error, or an
`application/octet-stream` body of the given length (the byte values —
`crypto.getRandomValues`, or the LCG stream when a numeric `seed` query is
present — do not affect the length and are abstracted). -/
inductive BytesResp where
  | badRequest : BytesResp
  | body : Nat → BytesResp
deriving DecidableEq, Repr

/-- The `GET /bytes/:n` handler: `n = parseInt(param)`, clamped by
`Math.min(n, 100 * 1024)` and rejected with 400 when `NaN` or negative. -/
def bytesGet (nstr : List Char) : BytesResp :=
  match jsParseInt nstr with
  | none => .badRequest
  | some n =>
    if n < 0 then .badRequest
    else .body (min n 102400).toNat


/-! ## Specification-side definitions used by the claim statements -/

/-- The `absolute` query flag of the redirect handler. -/
def absFlag (q : Option (List Char)) : Bool :=
  match q with
  | some s => toLowerA s == "true".data
  | none => false

/-- The code part of one comma-separated entry (`code` or `code:weight`). -/
def choiceCode (c : List Char) : List Char :=
  if containsChar c ':' then (splitOnC ':' c).getD 0 [] else c

/-- The code tokens of a status spec, per the source's own tokenization: a
spec without a comma is a single token; otherwise the part of each
comma-separated entry before its first `:`. -/
def codeTokens (codes : List Char) : List (List Char) :=
  if containsChar codes ',' then (splitOnC ',' codes).map choiceCode
  else [codes]

/-- The property that the token, after trimming, parses as an integer consuming the entire
token": `parseInt` of the trimmed token succeeds and its decimal rendering
reproduces the trimmed token (this also excludes leading zeros, a leading
`+`, and `-0`). -/
def fullTokenVal (t : List Char) : Option Int :=
  match jsParseInt (jsTrim t) with
  | some n => if intToChars n = jsTrim t then some n else none
  | none => none

/-- The rational value of a JS number, with NaN and the infinities sent to 0
(used only to state properties of all-finite weight lists). -/
def JNum.ratOr0 : JNum → ℚ
  | .fin d => d.toRat
  | _ => 0

/-- The weights of a choice list, as rationals. -/
def weightsQ (choices : List (Int × JNum)) : List ℚ :=
  (choices.map Prod.snd).map JNum.ratOr0

/-- Cumulative weight of the first `j + 1` entries, as a rational. -/
def cumQ (choices : List (Int × JNum)) (j : Nat) : ℚ :=
  ((weightsQ choices).take (j + 1)).sum

/-! ## Claim C1: the `data` field of the non-multipart normalizer -/

/-- C1 (code bug): for a request body that is not valid UTF-8 under a
non-form content type, the spec mandates the base64 data-URI fallback for
`data`, but `getRawDataFromContext` decodes with `fatal: false` — which never
throws — so `data` is the replacement-character text, never the fallback.
At body `[0xFF]` with content type `text/plain`: `form` and `json` are null
as claimed, but `data` is `"�"` while the claimed value is the
`jsonSafe` rendering `data:application/octet-stream;base64,/w==`. -/
theorem getRequestBodyData_lossy_decode_bug :
    getRequestBodyData ("text/plain".data) [0xFF] =
      ⟨none, [Char.ofNat 0xFFFD], none⟩ ∧
    jsonSafe (.bytes [0xFF]) defaultCT =
      "data:application/octet-stream;base64,/w==".data ∧
    (getRequestBodyData ("text/plain".data) [0xFF]).data ≠
      jsonSafe (.bytes [0xFF]) defaultCT := by
  refine ⟨by decide, by decide, by decide⟩


/-! ## Claim C9: `/bytes/:n` clamping -/

/-- C9: `GET /bytes/:n` returns at most 102400 bytes; a parsed `n` above
102400 is silently clamped to exactly 102400, and only an unparsable
(`NaN`) or negative `n` produces the 400 error. -/
theorem bytesGet_clamp (nstr : List Char) :
    (bytesGet nstr = .badRequest ↔
      jsParseInt nstr = none ∨ ∃ n, jsParseInt nstr = some n ∧ n < 0) ∧
    (∀ n, jsParseInt nstr = some n → 0 ≤ n →
      bytesGet nstr = .body (min n 102400).toNat) ∧
    (∀ len, bytesGet nstr = .body len → len ≤ 102400) ∧
    (∀ n, jsParseInt nstr = some n → 102400 < n → bytesGet nstr = .body 102400) := by
  have hbody : ∀ n : Int, jsParseInt nstr = some n → 0 ≤ n →
      bytesGet nstr = .body (min n 102400).toNat := by
    intro n h hn
    simp only [bytesGet, h, if_neg (by omega : ¬n < 0)]
  refine ⟨?_, hbody, ?_, ?_⟩
  · constructor
    · intro hc
      cases h : jsParseInt nstr with
      | none => exact Or.inl rfl
      | some n =>
        refine Or.inr ⟨n, rfl, ?_⟩
        by_contra hn
        rw [hbody n h (by omega)] at hc
        cases hc
    · rintro (h | ⟨n, h, hn⟩)
      · simp only [bytesGet, h]
      · simp only [bytesGet, h, if_pos hn]
  · intro len hlen
    cases h : jsParseInt nstr with
    | none => simp only [bytesGet, h] at hlen; cases hlen
    | some n =>
      by_cases hn : n < 0
      · simp only [bytesGet, h, if_pos hn] at hlen; cases hlen
      · rw [hbody n h (by omega)] at hlen
        cases hlen
        omega
  · intro n h hn
    rw [hbody n h (by omega)]
    congr 1
    omega

/-- Witness for C9 at `n = "999999"`: the parse succeeds with a value above
the cap and the body is clamped to 102400 bytes. -/
theorem bytesGet_clamp_witness :
    bytesGet ("999999".data) = .body 102400 :=
  (bytesGet_clamp ("999999".data)).2.2.2 999999 (by decide) (by decide)

/-! ## Claim C8: `/redirect/:n` -/

/-- C8 counterexample: the claim says a garbage-suffixed count such as
`"2abc"` is rejected with 400, but `parseInt` accepts its integer prefix and
the handler issues a 302 to `/relative-redirect/1`. -/
theorem redirectGet_garbage_suffix_accepted :
    redirectGet ("2abc".data) none = .relative ("/relative-redirect/1".data) ∧
    redirectGet ("2abc".data) none ≠ .badRequest := by
  exact ⟨by decide, by decide⟩

/-- C8 as amended: the handler 400s exactly when `parseInt` of the parameter
is `NaN` or below 1 (so strings with a valid integer prefix, like `"2abc"`
or `"1.9"`, are accepted at their prefix value); `n = 1` redirects to `/get`
and `n > 1` to `/absolute-redirect/{n-1}` or `/relative-redirect/{n-1}`
according to the `absolute=true` flag. -/
theorem redirectGet_parseint_semantics (nstr : List Char) (q : Option (List Char)) :
    (redirectGet nstr q = .badRequest ↔
      jsParseInt nstr = none ∨ ∃ n, jsParseInt nstr = some n ∧ n < 1) ∧
    (∀ n, jsParseInt nstr = some n → n = 1 →
      redirectGet nstr q =
        if absFlag q then .absolute ("/get".data) else .relative ("/get".data)) ∧
    (∀ n, jsParseInt nstr = some n → 1 < n →
      redirectGet nstr q =
        if absFlag q then .absolute ("/absolute-redirect/".data ++ intToChars (n - 1))
        else .relative ("/relative-redirect/".data ++ intToChars (n - 1))) := by
  have h1 : ∀ n : Int, jsParseInt nstr = some n → n = 1 →
      redirectGet nstr q =
        if absFlag q then .absolute ("/get".data) else .relative ("/get".data) := by
    intro n h hn
    subst hn
    simp only [redirectGet, h, if_neg (by omega : ¬(1:Int) < 1), if_pos rfl, absFlag]
    all_goals (cases q <;> rfl)
  have h2 : ∀ n : Int, jsParseInt nstr = some n → 1 < n →
      redirectGet nstr q =
        if absFlag q then .absolute ("/absolute-redirect/".data ++ intToChars (n - 1))
        else .relative ("/relative-redirect/".data ++ intToChars (n - 1)) := by
    intro n h hn
    simp only [redirectGet, h, if_neg (by omega : ¬n < 1),
      if_neg (by omega : n ≠ 1), absFlag]
  refine ⟨?_, h1, h2⟩
  constructor
  · intro hc
    cases h : jsParseInt nstr with
    | none => exact Or.inl rfl
    | some n =>
      refine Or.inr ⟨n, rfl, ?_⟩
      by_contra hn
      rcases (by omega : n = 1 ∨ 1 < n) with h' | h'
      · rw [h1 n h h'] at hc
        split at hc <;> cases hc
      · rw [h2 n h h'] at hc
        split at hc <;> cases hc
  · rintro (h | ⟨n, h, hn⟩)
    · simp only [redirectGet, h]
    · simp only [redirectGet, h, if_pos hn]

/-- Witness for C8 as amended, at `n = "3"` with `absolute=true`: a 302 to
the absolute `/absolute-redirect/2`. -/
theorem redirectGet_parseint_semantics_witness :
    redirectGet ("3".data) (some ("true".data)) =
      .absolute ("/absolute-redirect/2".data) := by
  have h := (redirectGet_parseint_semantics ("3".data) (some ("true".data))).2.2
    3 (by decide) (by decide)
  rw [h]
  decide

/-! ## Claim C6: `/bearer` -/

/-- C6 counterexample: an `Authorization` header of exactly `Bearer ` (the
scheme prefix followed by an empty token) is claimed to yield a 401, but the
handler's `startsWith("Bearer ")` passes and it answers 200 with an empty
token. -/
theorem bearerGet_empty_token_200 :
    bearerGet (some ("Bearer ".data)) = .okToken [] ∧
    ("Bearer ".data).drop 7 = [] := by
  exact ⟨by decide, by decide⟩

/-- C6 as amended: the `/bearer` handler answers the 401 challenge exactly
when the header is absent or does not start with the seven characters
`Bearer ` (hence `Authorization: Bearer` with no trailing space is a 401);
every header with that prefix — even with an empty remainder — is answered
200 with the remainder echoed as the token. -/
theorem bearerGet_challenge_iff (auth : Option (List Char)) :
    (bearerGet auth = .challenge ("Bearer".data) ↔
      auth = none ∨ ∃ h, auth = some h ∧ ("Bearer ".data).isPrefixOf h = false) ∧
    (∀ h, auth = some h → ("Bearer ".data).isPrefixOf h = true →
      bearerGet auth = .okToken (h.drop 7)) := by
  constructor
  · cases auth with
    | none => simp [bearerGet]
    | some h =>
      by_cases hp : ("Bearer ".data).isPrefixOf h <;> simp [bearerGet, hp]
  · intro h hh hp
    subst hh
    simp [bearerGet, hp]

/-- Witness for C6 as amended at `Authorization: Bearer tok123`. -/
theorem bearerGet_challenge_iff_witness :
    bearerGet (some ("Bearer tok123".data)) = .okToken ("tok123".data) :=
  (bearerGet_challenge_iff (some ("Bearer tok123".data))).2
    ("Bearer tok123".data) rfl (by decide)

/-! ## Claim C7: `/basic-auth/:user/:passwd` -/

/-- C7 counterexample: with path parameters `user = "u"`, `passwd = "a:b"`
and the header `Basic dTphOmI=`, the base64 payload decodes to exactly
`u:a:b` — byte-for-byte `user:passwd` — yet the handler answers the 401
challenge, because it splits the credentials on every `:` and compares only
the first two components. -/
theorem basicAuthGet_colon_passwd_rejected :
    atob ("dTphOmI=".data) = some ("u:a:b".data) ∧
    "u:a:b".data = "u".data ++ [':'] ++ "a:b".data ∧
    basicAuthGet ("u".data) ("a:b".data) (some ("Basic dTphOmI=".data)) =
      .challenge basicChallenge := by
  exact ⟨by decide, by decide, by decide⟩

/-- C7 as amended: a missing header or a non-`Basic ` scheme is a 401
challenge; with the scheme, the base64 payload is decoded by `atob` — an
undecodable payload escapes the handler as an exception, not a 401 — and the
decoded credentials are split on every `:`: the response is 200 with the
user echoed exactly when the first component equals `user` and the second
equals `passwd` (so parameters containing `:` can never match), otherwise
the 401 challenge. -/
theorem basicAuthGet_split_comparison (user passwd : List Char)
    (auth : Option (List Char)) :
    (auth = none → basicAuthGet user passwd auth = .challenge basicChallenge) ∧
    (∀ h, auth = some h → ("Basic ".data).isPrefixOf h = false →
      basicAuthGet user passwd auth = .challenge basicChallenge) ∧
    (∀ h, auth = some h → ("Basic ".data).isPrefixOf h = true →
      atob (h.drop 6) = none → basicAuthGet user passwd auth = .exception) ∧
    (∀ h cred, auth = some h → ("Basic ".data).isPrefixOf h = true →
      atob (h.drop 6) = some cred →
      (basicAuthGet user passwd auth = .okUser user ↔
        (splitOnC ':' cred).getD 0 [] = user ∧
        (splitOnC ':' cred).get? 1 = some passwd)) := by
  refine ⟨?_, ?_, ?_, ?_⟩
  · intro h
    subst h
    rfl
  · intro h hh hp
    subst hh
    simp [basicAuthGet, hp]
  · intro h hh hp ha
    subst hh
    simp [basicAuthGet, hp, ha]
  · intro h cred hh hp ha
    subst hh
    by_cases hu : (splitOnC ':' cred).getD 0 [] = user
    · by_cases hpw : (splitOnC ':' cred).get? 1 = some passwd
      · simp [basicAuthGet, hp, ha, hu, hpw]
      · simp [basicAuthGet, hp, ha, hu, hpw]
    · simp [basicAuthGet, hp, ha, hu]

/-- Witness for C7 as amended at `foo:bar` with matching parameters. -/
theorem basicAuthGet_split_comparison_witness :
    basicAuthGet ("foo".data) ("bar".data) (some ("Basic Zm9vOmJhcg==".data)) =
      .okUser ("foo".data) :=
  ((basicAuthGet_split_comparison ("foo".data) ("bar".data)
      (some ("Basic Zm9vOmJhcg==".data))).2.2.2
    ("Basic Zm9vOmJhcg==".data) ("foo:bar".data) rfl (by decide) (by decide)).2
    ⟨by decide, by decide⟩

/-! ## Claim C5: `/etag/:etag` conditional semantics -/

theorem splitOnC_ne_nil (sep : Char) (s : List Char) : splitOnC sep s ≠ [] := by
  cases s with
  | nil => simp [splitOnC]
  | cons c t =>
    simp only [splitOnC]
    by_cases h : c = sep
    · simp [h]
    · simp only [if_neg h]
      cases splitOnC sep t <;> simp

theorem parseMultiValueHeader_ne_nil (s : List Char) (hs : s ≠ []) :
    parseMultiValueHeader (some s) ≠ [] := by
  cases s with
  | nil => exact absurd rfl hs
  | cons c t =>
    simp only [parseMultiValueHeader, ne_eq, List.map_eq_nil_iff]
    exact splitOnC_ne_nil ',' (c :: t)

/-- C5: when an `If-None-Match` header is present (and nonempty), only that
branch is evaluated — a parsed list containing the etag or `*` yields 304
with `ETag: "{etag}"`, any other parsed list yields the 200 echo with the
same header, and a 412 can never result; a 412 (with empty body and no
`ETag` header) happens exactly when `If-None-Match` is absent or parses
empty while the parsed `If-Match` list is nonempty and contains neither the
etag nor `*`. -/
theorem etagGet_if_none_match_priority (etag : List Char)
    (inm im : Option (List Char)) :
    (∀ s, inm = some s → s ≠ [] →
      ((etag ∈ parseMultiValueHeader inm ∨ "*".data ∈ parseMultiValueHeader inm) →
        etagGet etag inm im = ⟨304, some ('"' :: etag ++ ['"']), false⟩) ∧
      (etag ∉ parseMultiValueHeader inm ∧ "*".data ∉ parseMultiValueHeader inm →
        etagGet etag inm im = ⟨200, some ('"' :: etag ++ ['"']), true⟩)) ∧
    ((etagGet etag inm im).status = 412 ↔
      (parseMultiValueHeader inm = [] ∧ parseMultiValueHeader im ≠ [] ∧
        etag ∉ parseMultiValueHeader im ∧ "*".data ∉ parseMultiValueHeader im)) := by
  constructor
  · intro s hs hne
    have hlen : 0 < (parseMultiValueHeader inm).length := by
      subst hs
      exact List.length_pos.mpr (parseMultiValueHeader_ne_nil s hne)
    constructor
    · intro hmem
      simp only [etagGet, if_pos hlen, if_pos hmem]
    · intro hnomem
      have : ¬(etag ∈ parseMultiValueHeader inm ∨
          "*".data ∈ parseMultiValueHeader inm) := by
        push_neg
        exact hnomem
      simp only [etagGet, if_pos hlen, if_neg this]
  · constructor
    · intro h412
      by_cases hlen : 0 < (parseMultiValueHeader inm).length
      · exfalso
        by_cases hm : etag ∈ parseMultiValueHeader inm ∨
            "*".data ∈ parseMultiValueHeader inm
        · simp [etagGet, if_pos hlen, if_pos hm] at h412
        · simp [etagGet, if_pos hlen, if_neg hm] at h412
      · by_cases hlen2 : 0 < (parseMultiValueHeader im).length
        · by_cases hm2 : etag ∉ parseMultiValueHeader im ∧
              "*".data ∉ parseMultiValueHeader im
          · refine ⟨?_, ?_, hm2.1, hm2.2⟩
            · exact List.length_eq_zero.mp (by omega)
            · exact List.ne_nil_of_length_pos hlen2
          · exfalso
            simp [etagGet, if_neg hlen, if_pos hlen2, if_neg hm2] at h412
        · exfalso
          simp [etagGet, if_neg hlen, if_neg hlen2] at h412
    · rintro ⟨h1, h2, h3, h4⟩
      have hlen : ¬0 < (parseMultiValueHeader inm).length := by
        simp [h1]
      have hlen2 : 0 < (parseMultiValueHeader im).length :=
        List.length_pos.mpr h2
      simp [etagGet, if_neg hlen, if_pos hlen2, if_pos (And.intro h3 h4)]

/-- Witness for C5: with `etag = e1`, `If-None-Match: "e1"` and an
`If-Match` that matches nothing, the response is the 304 with the quoted
etag (the `If-Match` branch is never reached); and the 412 characterization
instantiated where `If-None-Match` is absent. -/
theorem etagGet_if_none_match_priority_witness :
    etagGet ("e1".data) (some ("\"e1\"".data)) (some ("zz".data)) =
      ⟨304, some ("\"e1\"".data), false⟩ ∧
    (etagGet ("e1".data) none (some ("zz".data))).status = 412 := by
  constructor
  · exact ((etagGet_if_none_match_priority ("e1".data)
      (some ("\"e1\"".data)) (some ("zz".data))).1
      ("\"e1\"".data) rfl (by decide)).1 (by decide)
  · exact (etagGet_if_none_match_priority ("e1".data) none
      (some ("zz".data))).2.mpr ⟨by decide, by decide, by decide, by decide⟩

/-! ## Claim C2: `jsonSafe` round-trip -/

theorem b64Val_b64Char : ∀ k, k < 64 → b64Val (b64Char k) = some k := by decide

theorem b64Char_ne_pad : ∀ k, k < 64 → b64Char k ≠ '=' := by decide

/-- The canonical decoder inverts `base64Encode` on byte sequences. -/
theorem base64Encode_roundtrip :
    ∀ b : List Nat, (∀ x ∈ b, x < 256) →
      base64Decode (base64Encode b) = some b := by
  intro b
  induction b using base64Encode.induct with
  | case1 =>
    intro _
    rfl
  | case2 b1 =>
    intro hb
    have h1 : b1 < 256 := hb b1 (by simp)
    simp only [base64Encode, base64Decode,
      b64Val_b64Char (b1 / 4) (by omega),
      b64Val_b64Char (b1 % 4 * 16) (by omega)]
    rw [if_pos (by simp)]
    have : b1 / 4 * 4 + b1 % 4 * 16 / 16 = b1 := by omega
    rw [this]
  | case3 b1 b2 =>
    intro hb
    have h1 : b1 < 256 := hb b1 (by simp)
    have h2 : b2 < 256 := hb b2 (by simp)
    simp only [base64Encode, base64Decode,
      b64Val_b64Char (b1 / 4) (by omega),
      b64Val_b64Char (b1 % 4 * 16 + b2 / 16) (by omega),
      b64Val_b64Char (b2 % 16 * 4) (by omega)]
    rw [if_neg (by
      rintro ⟨hc, -⟩
      exact b64Char_ne_pad (b2 % 16 * 4) (by omega) hc)]
    rw [if_pos (by simp)]
    have e1 : (b1 / 4) * 4 + (b1 % 4 * 16 + b2 / 16) / 16 = b1 := by omega
    have e2 : (b1 % 4 * 16 + b2 / 16) % 16 * 16 + b2 % 16 * 4 / 4 = b2 := by omega
    rw [e1, e2]
  | case4 b1 b2 b3 rest ih =>
    intro hb
    have h1 : b1 < 256 := hb b1 (by simp)
    have h2 : b2 < 256 := hb b2 (by simp)
    have h3 : b3 < 256 := hb b3 (by simp)
    have hrest : ∀ x ∈ rest, x < 256 := fun x hx => hb x (by simp [hx])
    simp only [base64Encode, base64Decode,
      b64Val_b64Char (b1 / 4) (by omega),
      b64Val_b64Char (b1 % 4 * 16 + b2 / 16) (by omega),
      b64Val_b64Char (b2 % 16 * 4 + b3 / 64) (by omega),
      b64Val_b64Char (b3 % 64) (by omega)]
    rw [if_neg (by
      rintro ⟨hc, -⟩
      exact b64Char_ne_pad (b2 % 16 * 4 + b3 / 64) (by omega) hc)]
    rw [if_neg (by
      rintro ⟨hc, -⟩
      exact b64Char_ne_pad (b3 % 64) (by omega) hc)]
    rw [ih hrest]
    have e1 : (b1 / 4) * 4 + (b1 % 4 * 16 + b2 / 16) / 16 = b1 := by omega
    have e2 : (b1 % 4 * 16 + b2 / 16) % 16 * 16 + (b2 % 16 * 4 + b3 / 64) / 4 = b2 := by
      omega
    have e3 : (b2 % 16 * 4 + b3 / 64) % 4 * 64 + b3 % 64 = b3 := by omega
    simp only [Option.map_some']
    rw [e1, e2, e3]

/-- C2: `jsonSafe` on bytes round-trips. When the bytes decode strictly as
UTF-8, the result is exactly that decoding; otherwise the result is the data
URI `data:{t};base64,{payload}` and the payload decodes back to the original
bytes exactly. -/
theorem jsonSafe_roundtrip (b : List Nat) (t : List Char)
    (hb : ∀ x ∈ b, x < 256) :
    (∀ s, utf8Decode b = some s → jsonSafe (.bytes b) t = s) ∧
    (utf8Decode b = none →
      jsonSafe (.bytes b) t =
        "data:".data ++ t ++ ";base64,".data ++ base64Encode b ∧
      base64Decode (base64Encode b) = some b) := by
  constructor
  · intro s hs
    simp [jsonSafe, hs]
  · intro hn
    exact ⟨by simp [jsonSafe, hn, dataUri], base64Encode_roundtrip b hb⟩

/-- Witness for C2 at the invalid-UTF-8 byte sequence `[0xFF]`: the fallback
data URI is produced and its payload decodes back to `[0xFF]`. -/
theorem jsonSafe_roundtrip_witness :
    jsonSafe (.bytes [0xFF]) ("text/plain".data) =
      "data:".data ++ "text/plain".data ++ ";base64,".data ++
        base64Encode [0xFF] ∧
    base64Decode (base64Encode [0xFF]) = some [0xFF] :=
  (jsonSafe_roundtrip [0xFF] ("text/plain".data) (by decide)).2 (by decide)

/-! ## Trimming lemmas (for the status-code token validation) -/

theorem trimL_head_not_ws :
    ∀ (s : List Char) (c : Char), (trimL s).head? = some c → jsWs c = false := by
  intro s
  induction s with
  | nil => intro c h; cases h
  | cons a t ih =>
    intro c h
    by_cases ha : jsWs a = true
    · rw [trimL, List.dropWhile_cons, if_pos ha] at h
      exact ih c h
    · rw [trimL, List.dropWhile_cons, if_neg ha] at h
      have : a = c := by simpa using h
      subst this
      simpa using ha

theorem trimR_prefix (s : List Char) : trimR s <+: s := by
  obtain ⟨t, ht⟩ := List.dropWhile_suffix (l := s.reverse) (p := jsWs)
  refine ⟨t.reverse, ?_⟩
  rw [trimR, ← List.reverse_append, ht, List.reverse_reverse]

theorem trimR_head (s : List Char) (h : trimR s ≠ []) :
    (trimR s).head? = s.head? := by
  obtain ⟨t, ht⟩ := trimR_prefix s
  cases htr : trimR s with
  | nil => exact absurd htr h
  | cons c cs =>
    rw [htr] at ht
    rw [← ht]
    rfl

theorem trimR_cons (c : Char) (r : List Char) (hc : jsWs c = false) :
    trimR (c :: r) = c :: trimR r := by
  rw [trimR, trimR]
  rw [show (c :: r).reverse = r.reverse ++ [c] from by simp]
  rw [List.dropWhile_append]
  by_cases he : (r.reverse.dropWhile jsWs).isEmpty
  · rw [if_pos he]
    have h1 : ([c].dropWhile jsWs) = [c] := by
      simp [List.dropWhile, hc]
    have h2 : r.reverse.dropWhile jsWs = [] := by
      simpa [List.isEmpty_iff] using he
    rw [h1, h2]
    simp
  · rw [if_neg he]
    simp

theorem takeWhile_digit_trimR :
    ∀ r : List Char, (trimR r).takeWhile isDigitC = r.takeWhile isDigitC := by
  intro r
  induction r with
  | nil => rfl
  | cons a t ih =>
    by_cases hd : isDigitC a = true
    · have hw : jsWs a = false := by
        revert hd
        simp only [isDigitC, jsWs, decide_eq_true_eq, decide_eq_false_iff_not]
        intro h
        omega
      rw [trimR_cons a t hw]
      rw [List.takeWhile_cons, List.takeWhile_cons, if_pos hd, if_pos hd, ih]
    · rw [List.takeWhile_cons, if_neg hd]
      cases htr : trimR (a :: t) with
      | nil => rfl
      | cons x xs =>
        have hh := trimR_head (a :: t) (by rw [htr]; simp)
        rw [htr] at hh
        have hx : x = a := by simpa using hh
        subst hx
        rw [List.takeWhile_cons, if_neg hd]

theorem digitsVal_trimR (r : List Char) : digitsVal (trimR r) = digitsVal r := by
  unfold digitsVal
  rw [takeWhile_digit_trimR r]

theorem parseIntCore_other (c : Char) (r : List Char) (h1 : c ≠ '-')
    (h2 : c ≠ '+') :
    parseIntCore (c :: r) = (digitsVal (c :: r)).map (fun n => (n : Int)) := by
  unfold parseIntCore
  split
  · next heq =>
    exfalso
    injection heq with hc hr
    exact h1 hc
  · next heq =>
    exfalso
    injection heq with hc hr
    exact h2 hc
  · rfl

/-- The function `parseInt` ignores surrounding whitespace: parsing the trimmed string
gives the same result. -/
theorem jsParseInt_jsTrim (s : List Char) : jsParseInt (jsTrim s) = jsParseInt s := by
  rw [jsParseInt, jsParseInt, jsTrim]
  rw [show s.dropWhile jsWs = trimL s from rfl]
  cases hu : trimL s with
  | nil => rfl
  | cons c r =>
    have hcw : jsWs c = false := trimL_head_not_ws s c (by rw [hu]; rfl)
    rw [trimR_cons c r hcw]
    rw [List.dropWhile_cons, if_neg (by simp [hcw])]
    have hdv : digitsVal (c :: trimR r) = digitsVal (c :: r) := by
      unfold digitsVal
      rw [List.takeWhile_cons, List.takeWhile_cons, takeWhile_digit_trimR r]
    by_cases h1 : c = '-'
    · subst h1
      show parseIntCore ('-' :: trimR r) = parseIntCore ('-' :: r)
      simp only [parseIntCore]
      rw [digitsVal_trimR r]
    · by_cases h2 : c = '+'
      · subst h2
        show parseIntCore ('+' :: trimR r) = parseIntCore ('+' :: r)
        simp only [parseIntCore]
        rw [digitsVal_trimR r]
      · rw [parseIntCore_other c _ h1 h2, parseIntCore_other c _ h1 h2, hdv]

/-! ## Claim C4: status-spec token validation -/

/-- The code component of one parsed entry is exactly the full-token value
of its code part. -/
theorem parseChoice1_fst (c : List Char) :
    (parseChoice1 c).map Prod.fst = fullTokenVal (choiceCode c) := by
  simp only [parseChoice1, fullTokenVal, choiceCode]
  cases h : jsParseInt (jsTrim (if containsChar c ':' then (splitOnC ':' c).getD 0 [] else c)) with
  | none => rfl
  | some code =>
    by_cases he :
        intToChars code =
          jsTrim (if containsChar c ':' then (splitOnC ':' c).getD 0 [] else c)
    · simp [he]
    · simp [he]

theorem parseChoices_none_iff :
    ∀ cs : List (List Char),
      (parseChoices cs = none ↔ ∃ c ∈ cs, fullTokenVal (choiceCode c) = none) := by
  intro cs
  induction cs with
  | nil => simp [parseChoices]
  | cons c rest ih =>
    simp only [parseChoices]
    cases h : parseChoice1 c with
    | none =>
      have hv : fullTokenVal (choiceCode c) = none := by
        rw [← parseChoice1_fst, h]
        rfl
      simp [hv]
    | some cw =>
      have hv : fullTokenVal (choiceCode c) = some cw.1 := by
        rw [← parseChoice1_fst, h]
        rfl
      rw [Option.map_eq_none', ih]
      constructor
      · rintro ⟨c', hc', hv'⟩
        exact ⟨c', List.mem_cons_of_mem c hc', hv'⟩
      · rintro ⟨c', hc', hv'⟩
        rcases List.mem_cons.mp hc' with rfl | hc''
        · rw [hv] at hv'; cases hv'
        · exact ⟨c', hc'', hv'⟩

theorem parseChoices_some_spec :
    ∀ (cs : List (List Char)) (choices : List (Int × JNum)),
      parseChoices cs = some choices →
      choices.map Prod.fst = cs.filterMap (fun c => fullTokenVal (choiceCode c)) ∧
      choices.length = cs.length := by
  intro cs
  induction cs with
  | nil =>
    intro choices h
    simp only [parseChoices, Option.some.injEq] at h
    subst h
    simp
  | cons c rest ih =>
    intro choices h
    simp only [parseChoices] at h
    cases hp : parseChoice1 c with
    | none => rw [hp] at h; cases h
    | some cw =>
      rw [hp] at h
      cases hr : parseChoices rest with
      | none => rw [hr] at h; cases h
      | some l =>
        rw [hr] at h
        simp only [Option.map_some', Option.some.injEq] at h
        subst h
        have hv : fullTokenVal (choiceCode c) = some cw.1 := by
          rw [← parseChoice1_fst, hp]
          rfl
        rcases ih l hr with ⟨h1, h2⟩
        refine ⟨?_, by simp [h2]⟩
        simp only [List.map_cons, List.filterMap_cons, hv, h1]

theorem cumWeights_length (acc : JNum) :
    ∀ ws : List JNum, (cumWeights acc ws).length = ws.length := by
  intro ws
  induction ws generalizing acc with
  | nil => rfl
  | cons w ws ih => simp [cumWeights, ih]

theorem firstLe_lt_length (x : JNum) :
    ∀ cs j, firstLe x cs = some j → j < cs.length := by
  intro cs
  induction cs with
  | nil => intro j h; cases h
  | cons c cs ih =>
    intro j h
    rw [firstLe] at h
    by_cases hc : x.le c
    · rw [if_pos hc] at h
      cases h
      simp
    · rw [if_neg hc] at h
      cases hf : firstLe x cs with
      | none => rw [hf] at h; cases h
      | some j' =>
        rw [hf] at h
        cases h
        have := ih j' hf
        simp
        omega

theorem getD_map_fst (l : List (Int × JNum)) (i : Nat) (h : i < l.length) :
    (l.map Prod.fst).getD i 0 = (l.getD i (0, .nan)).1 := by
  induction l generalizing i with
  | nil => simp at h
  | cons p t ih =>
    cases i with
    | zero => rfl
    | succ i =>
      simp only [List.map_cons, List.getD_cons_succ]
      exact ih i (by simpa using Nat.lt_of_succ_lt_succ h)

/-- The selected value of `weightedChoice` is always one of the listed
values (for a nonempty list of choices). -/
theorem weightedChoice_mem (choices : List (Int × JNum)) (r : DecTen)
    (hne : choices ≠ []) :
    weightedChoice choices r ∈ choices.map Prod.fst := by
  rw [weightedChoice]
  have hlen : 0 < choices.length := List.length_pos.mpr hne
  set cums := cumWeights (.fin ⟨0, 0⟩) (choices.map Prod.snd) with hcums
  set x := (JNum.fin r).mul (cums.getLastD (.fin ⟨0, 0⟩)) with hx
  have hi : (firstLe x cums).getD 0 < choices.length := by
    cases hf : firstLe x cums with
    | none => simpa using hlen
    | some j =>
      have := firstLe_lt_length x cums j hf
      rw [hcums, cumWeights_length, List.length_map] at this
      simpa using this
  have : (choices.map Prod.fst).getD ((firstLe x cums).getD 0) 0 =
      (choices.map Prod.fst).get ⟨(firstLe x cums).getD 0, by simpa using hi⟩ := by
    rw [List.getD_eq_getElem?_getD, List.getElem?_eq_getElem (by simpa using hi)]
    rfl
  rw [this]
  exact List.get_mem _ _ _

/-- C4: a status spec is rejected — surfacing as HTTP 400 with the plain
text `Invalid status code` — exactly when some code token (after trimming)
fails to parse as an integer consuming the entire token, even when every
other entry is valid; otherwise the resolved code is one of the listed
integers. -/
theorem handleStatusCodes_token_validation (codes : List Char) (r : DecTen) :
    ((handleStatusCodes codes r).isErr = true ↔
      ∃ t ∈ codeTokens codes, fullTokenVal t = none) ∧
    (∀ c, handleStatusCodes codes r = .ok c →
      c ∈ (codeTokens codes).filterMap fullTokenVal) ∧
    ((handleStatusCodes codes r).isErr = true →
      statusCodeHandler codes r = ⟨400, some ("Invalid status code".data), []⟩) := by
  have hh : ∀ o : StatusOutcome, o.isErr = true → o = .invalid := by
    intro o h
    cases o with
    | invalid => rfl
    | ok c => cases h
  have h400 : (handleStatusCodes codes r).isErr = true →
      statusCodeHandler codes r = ⟨400, some ("Invalid status code".data), []⟩ := by
    intro h
    rw [statusCodeHandler, hh _ h]
  have hmain : ((handleStatusCodes codes r).isErr = true ↔
      ∃ t ∈ codeTokens codes, fullTokenVal t = none) ∧
      (∀ c, handleStatusCodes codes r = .ok c →
        c ∈ (codeTokens codes).filterMap fullTokenVal) := by
    by_cases hc : containsChar codes ','
    · -- comma: the weighted list path
      have htok : codeTokens codes = (splitOnC ',' codes).map choiceCode := by
        rw [codeTokens, if_pos hc]
      simp only [handleStatusCodes, hc, Bool.not_true, Bool.false_eq_true,
        if_false, htok]
      cases hp : parseChoices (splitOnC ',' codes) with
      | none =>
        refine ⟨?_, ?_⟩
        · simp only [StatusOutcome.isErr, true_iff]
          rcases (parseChoices_none_iff _).mp hp with ⟨c, hcm, hv⟩
          exact ⟨choiceCode c, List.mem_map_of_mem choiceCode hcm, hv⟩
        · intro c h
          cases h
      | some choices =>
        rcases parseChoices_some_spec _ choices hp with ⟨hmap, hlen⟩
        refine ⟨?_, ?_⟩
        · simp only [StatusOutcome.isErr, Bool.false_eq_true, false_iff]
          rintro ⟨t, htm, hv⟩
          rcases List.mem_map.mp htm with ⟨c, hcm, rfl⟩
          have : parseChoices (splitOnC ',' codes) = none :=
            (parseChoices_none_iff _).mpr ⟨c, hcm, hv⟩
          rw [hp] at this
          cases this
        · intro c h
          cases h
          have hne : choices ≠ [] := by
            intro h0
            have := splitOnC_ne_nil ',' codes
            rw [h0] at hlen
            simp at hlen
            exact this (List.length_eq_zero.mp hlen.symm)
          have hmem := weightedChoice_mem choices r hne
          rw [hmap] at hmem
          rw [List.filterMap_map]
          exact hmem
    · -- no comma: the single-code path
      have htok : codeTokens codes = [codes] := by
        rw [codeTokens, if_neg hc]
      have hft : fullTokenVal codes =
          match jsParseInt codes with
          | some n => if intToChars n = jsTrim codes then some n else none
          | none => none := by
        rw [fullTokenVal, jsParseInt_jsTrim]
      simp only [handleStatusCodes, hc, Bool.not_false, if_true, htok]
      cases hp : jsParseInt codes with
      | none =>
        have hv : fullTokenVal codes = none := by rw [hft, hp]
        refine ⟨?_, ?_⟩
        · simp only [StatusOutcome.isErr, true_iff]
          exact ⟨codes, by simp, hv⟩
        · intro c h
          cases h
      | some code =>
        by_cases he : intToChars code = jsTrim codes
        · have hv : fullTokenVal codes = some code := by
            rw [hft, hp]
            simp [he]
          simp only [if_pos he]
          refine ⟨?_, ?_⟩
          · simp only [StatusOutcome.isErr, Bool.false_eq_true, false_iff]
            rintro ⟨t, htm, hv'⟩
            rcases List.mem_singleton.mp htm with rfl
            rw [hv] at hv'
            cases hv'
          · intro c h
            cases h
            simp [List.filterMap, hv]
        · have hv : fullTokenVal codes = none := by
            rw [hft, hp]
            simp [he]
          simp only [if_neg he]
          refine ⟨?_, ?_⟩
          · simp only [StatusOutcome.isErr, true_iff]
            exact ⟨codes, by simp, hv⟩
          · intro c h
            cases h
  exact ⟨hmain.1, hmain.2, h400⟩

/-- Witness for C4: `"200,500"` resolves to a listed code (200 at draw 0),
and `"abc"` surfaces as the plain-text 400. -/
theorem handleStatusCodes_token_validation_witness :
    (200 : Int) ∈ (codeTokens ("200,500".data)).filterMap fullTokenVal ∧
    statusCodeHandler ("abc".data) ⟨0, 0⟩ =
      ⟨400, some ("Invalid status code".data), []⟩ := by
  constructor
  · exact (handleStatusCodes_token_validation ("200,500".data) ⟨0, 0⟩).2.1 200
      (by decide)
  · exact (handleStatusCodes_token_validation ("abc".data) ⟨0, 0⟩).2.2 (by decide)

/-! ## Claim C10: weight tokens are never validated -/

theorem firstLe_nan : ∀ cs : List JNum, firstLe .nan cs = none := by
  intro cs
  induction cs with
  | nil => rfl
  | cons c t ih =>
    have : JNum.le .nan c = false := by cases c <;> rfl
    simp [firstLe, this, ih]

/-- C10: in a comma-separated spec whose code tokens are all valid, the spec
is accepted no matter what the weight parts look like, the resolved code is
one of the listed codes, and when the accumulated total weight is `NaN`
(e.g. an unparsable weight) the first listed code is selected — in
particular `"200:abc,500:1"` always resolves to 200. -/
theorem statusCodes_weights_unvalidated (codes : List Char) (r : DecTen)
    (hcomma : containsChar codes ',' = true)
    (hv : ∀ t ∈ codeTokens codes, (fullTokenVal t).isSome = true) :
    (handleStatusCodes codes r).isErr = false ∧
    (∀ c, handleStatusCodes codes r = .ok c →
      c ∈ (codeTokens codes).filterMap fullTokenVal) ∧
    (∀ choices, parseChoices (splitOnC ',' codes) = some choices →
      (cumWeights (.fin ⟨0, 0⟩) (choices.map Prod.snd)).getLastD (.fin ⟨0, 0⟩) =
        .nan →
      handleStatusCodes codes r =
        .ok (((codeTokens codes).filterMap fullTokenVal).getD 0 0)) ∧
    handleStatusCodes ("200:abc,500:1".data) r = .ok 200 := by
  have htok : codeTokens codes = (splitOnC ',' codes).map choiceCode := by
    rw [codeTokens, if_pos hcomma]
  have hsome : parseChoices (splitOnC ',' codes) ≠ none := by
    intro h0
    rcases (parseChoices_none_iff _).mp h0 with ⟨c, hcm, hnone⟩
    have := hv (choiceCode c) (by rw [htok]; exact List.mem_map_of_mem choiceCode hcm)
    rw [hnone] at this
    cases this
  cases hp : parseChoices (splitOnC ',' codes) with
  | none => exact absurd hp hsome
  | some choices =>
    rcases parseChoices_some_spec _ choices hp with ⟨hmap, hlen⟩
    have hne : choices ≠ [] := by
      intro h0
      have := splitOnC_ne_nil ',' codes
      rw [h0] at hlen
      simp at hlen
      exact this (List.length_eq_zero.mp hlen.symm)
    have hrun : handleStatusCodes codes r = .ok (weightedChoice choices r) := by
      simp only [handleStatusCodes, hcomma, Bool.not_true, Bool.false_eq_true,
        if_false, hp]
    have hfirstOf : choices.map Prod.fst =
        (codeTokens codes).filterMap fullTokenVal := by
      rw [htok, List.filterMap_map, hmap]
      rfl
    refine ⟨?_, ?_, ?_, ?_⟩
    · rw [hrun]
      rfl
    · intro c h
      rw [hrun] at h
      cases h
      have hmem := weightedChoice_mem choices r hne
      rw [hfirstOf] at hmem
      exact hmem
    · intro choices' hp' htot
      simp only [hp, Option.some.injEq] at hp'
      subst hp'
      rw [hrun]
      rw [weightedChoice]
      rw [htot]
      have hx : (JNum.fin r).mul .nan = .nan := rfl
      rw [hx, firstLe_nan]
      rw [← hfirstOf]
      rfl
    · have hpi : parseChoices (splitOnC ',' ("200:abc,500:1".data)) =
          some [(200, .nan), (500, .fin ⟨1, 0⟩)] := by decide
      have hci : containsChar ("200:abc,500:1".data) ',' = true := by decide
      have hruni : handleStatusCodes ("200:abc,500:1".data) r =
          .ok (weightedChoice [(200, .nan), (500, .fin ⟨1, 0⟩)] r) := by
        simp only [handleStatusCodes, hci, Bool.not_true, Bool.false_eq_true,
          if_false, hpi]
      rw [hruni]
      rw [weightedChoice]
      have hcum : cumWeights (.fin ⟨0, 0⟩)
          ([((200 : Int), JNum.nan), (500, .fin ⟨1, 0⟩)].map Prod.snd) =
          [.nan, .nan] := by decide
      rw [hcum]
      have hx : (JNum.fin r).mul ([JNum.nan, .nan].getLastD (.fin ⟨0, 0⟩)) = .nan := rfl
      rw [hx, firstLe_nan]
      rfl

/-! ## Claim C3: weighted selection -/

/-- C3 counterexample: for the spec `500:0,200:1` the draw `x = 0` (which
`Math.random() * total` produces whenever `Math.random()` returns 0, a value
in its range) selects the zero-weight entry 500: `x <= cumWeights[0] = 0`
holds at the first loop step. So a zero-weight entry can be chosen. -/
theorem weightedChoice_zero_weight_selected :
    weightedChoice [(500, .fin ⟨0, 0⟩), (200, .fin ⟨1, 0⟩)] ⟨0, 0⟩ = 500 ∧
    DecTen.toRat ⟨0, 0⟩ = 0 ∧
    (weightsQ [((500 : Int), JNum.fin ⟨0, 0⟩), (200, .fin ⟨1, 0⟩)]).sum = 1 := by
  refine ⟨by decide, ?_, ?_⟩
  · simp [DecTen.toRat]
  · simp [weightsQ, JNum.ratOr0, DecTen.toRat]

theorem DecTen.toRat_add (a b : DecTen) : (a.add b).toRat = a.toRat + b.toRat := by
  simp only [DecTen.add, DecTen.toRat]
  push_cast
  rw [pow_add, div_add_div _ _ (ne_of_gt (by positivity)) (ne_of_gt (by positivity))]
  ring_nf

theorem DecTen.toRat_mul (a b : DecTen) : (a.mul b).toRat = a.toRat * b.toRat := by
  simp only [DecTen.mul, DecTen.toRat]
  push_cast
  rw [pow_add, div_mul_div_comm]

theorem DecTen.le_iff (a b : DecTen) : a.le b = true ↔ a.toRat ≤ b.toRat := by
  simp only [DecTen.le, DecTen.toRat, decide_eq_true_eq]
  rw [div_le_div_iff (by positivity) (by positivity)]
  constructor <;> intro h <;> exact_mod_cast h

theorem cumWeights_fin (ws : List JNum) :
    ∀ acc : DecTen, (∀ w ∈ ws, ∃ d, w = .fin d) →
      ∃ cs : List DecTen, cumWeights (.fin acc) ws = cs.map .fin ∧
        cs.length = ws.length ∧
        ∀ j, j < ws.length →
          (cs.getD j ⟨0, 0⟩).toRat =
            acc.toRat + ((ws.map JNum.ratOr0).take (j + 1)).sum := by
  induction ws with
  | nil =>
    intro acc _
    exact ⟨[], rfl, rfl, fun j hj => absurd hj (by simp)⟩
  | cons w ws ih =>
    intro acc hw
    rcases hw w (List.mem_cons_self w ws) with ⟨d, rfl⟩
    rcases ih (acc.add d) (fun w' hw' => hw w' (List.mem_cons_of_mem _ hw')) with
      ⟨cs, hmap, hlen, hval⟩
    refine ⟨acc.add d :: cs, ?_, by simp [hlen], ?_⟩
    · rw [cumWeights]
      rw [show (JNum.fin acc).add (.fin d) = .fin (acc.add d) from rfl]
      rw [hmap]
      rfl
    · intro j hj
      cases j with
      | zero =>
        simp only [List.getD_cons_zero, List.map_cons, List.take_succ_cons,
          List.take_zero, List.sum_cons, List.sum_nil, add_zero]
        rw [DecTen.toRat_add]
        rfl
      | succ j =>
        simp only [List.getD_cons_succ, List.map_cons, List.take_succ_cons,
          List.sum_cons]
        rw [hval j (by simpa using Nat.lt_of_succ_lt_succ hj)]
        rw [DecTen.toRat_add]
        show acc.toRat + d.toRat + _ = acc.toRat + ((JNum.fin d).ratOr0 + _)
        rw [show (JNum.fin d).ratOr0 = d.toRat from rfl]
        ring

theorem firstLe_fin_some (x : DecTen) :
    ∀ (cs : List DecTen) (j : Nat),
      firstLe (.fin x) (cs.map .fin) = some j →
      j < cs.length ∧ x.toRat ≤ (cs.getD j ⟨0, 0⟩).toRat ∧
        ∀ k < j, (cs.getD k ⟨0, 0⟩).toRat < x.toRat := by
  intro cs
  induction cs with
  | nil => intro j h; cases h
  | cons c cs ih =>
    intro j h
    rw [List.map_cons, firstLe] at h
    by_cases hc : (JNum.fin x).le (.fin c) = true
    · rw [if_pos hc] at h
      cases h
      refine ⟨by simp, ?_, by omega⟩
      simp only [List.getD_cons_zero]
      exact (DecTen.le_iff x c).mp hc
    · rw [if_neg hc] at h
      cases hf : firstLe (.fin x) (cs.map .fin) with
      | none => rw [hf] at h; cases h
      | some j' =>
        rw [hf] at h
        cases h
        rcases ih j' hf with ⟨h1, h2, h3⟩
        refine ⟨by simpa using Nat.succ_lt_succ h1, by simpa using h2, ?_⟩
        intro k hk
        cases k with
        | zero =>
          simp only [List.getD_cons_zero]
          have h0 : ¬x.toRat ≤ c.toRat := fun hle =>
            hc ((DecTen.le_iff x c).mpr hle)
          exact lt_of_not_le h0
        | succ k =>
          simp only [List.getD_cons_succ]
          exact h3 k (Nat.lt_of_succ_lt_succ hk)

theorem firstLe_fin_none (x : DecTen) :
    ∀ cs : List DecTen,
      firstLe (.fin x) (cs.map .fin) = none →
      ∀ k < cs.length, (cs.getD k ⟨0, 0⟩).toRat < x.toRat := by
  intro cs
  induction cs with
  | nil => intro _ k hk; exact absurd hk (by simp)
  | cons c cs ih =>
    intro h k hk
    rw [List.map_cons, firstLe] at h
    by_cases hc : (JNum.fin x).le (.fin c) = true
    · rw [if_pos hc] at h; cases h
    · rw [if_neg hc] at h
      have hn : firstLe (.fin x) (cs.map .fin) = none := by
        cases hf : firstLe (.fin x) (cs.map .fin) with
        | none => rfl
        | some j' => rw [hf] at h; cases h
      cases k with
      | zero =>
        simp only [List.getD_cons_zero]
        have : ¬x.toRat ≤ c.toRat := fun hle => hc ((DecTen.le_iff x c).mpr hle)
        linarith [lt_of_not_le this]
      | succ k =>
        simp only [List.getD_cons_succ]
        exact ih hn k (by simpa using Nat.lt_of_succ_lt_succ hk)

theorem getLastD_map_fin :
    ∀ (cs : List DecTen) (d : DecTen),
      (cs.map JNum.fin).getLastD (.fin d) = .fin (cs.getLastD d) := by
  intro cs
  induction cs with
  | nil => intro d; rfl
  | cons c cs ih =>
    intro d
    rw [List.map_cons, List.getLastD_cons, List.getLastD_cons]
    exact ih c

theorem getD_length_sub_one :
    ∀ (cs : List DecTen) (d : DecTen), cs ≠ [] →
      cs.getD (cs.length - 1) d = cs.getLastD d := by
  intro cs
  induction cs with
  | nil => intro d h; exact absurd rfl h
  | cons c cs ih =>
    intro d _
    cases cs with
    | nil => rfl
    | cons c2 cs2 =>
      rw [List.getLastD_cons]
      rw [show (c :: c2 :: cs2).length - 1 = (c2 :: cs2).length - 1 + 1 by
        simp [Nat.succ_sub_one]]
      rw [List.getD_cons_succ]
      rw [ih d (by simp)]
      rw [List.getLastD_eq_getLast?, List.getLastD_eq_getLast?]
      cases hgl : (c2 :: cs2).getLast? with
      | none =>
        exfalso
        rw [List.getLast?_eq_none_iff] at hgl
        cases hgl
      | some y => rfl

theorem getD_weightsQ (choices : List (Int × JNum)) :
    ∀ i, i < choices.length →
      (weightsQ choices).getD i 0 = (choices.getD i (0, .nan)).2.ratOr0 := by
  induction choices with
  | nil => intro i hi; exact absurd hi (by simp)
  | cons p t ih =>
    intro i hi
    cases i with
    | zero => rfl
    | succ i =>
      show (weightsQ t).getD i 0 = (t.getD i (0, .nan)).2.ratOr0
      exact ih i (Nat.lt_of_succ_lt_succ (by simpa using hi))

theorem take_one_sum (l : List ℚ) (h : l ≠ []) :
    (l.take 1).sum = l.getD 0 0 := by
  cases l with
  | nil => exact absurd rfl h
  | cons x t => simp

theorem cumQ_succ (choices : List (Int × JNum)) (k : Nat)
    (h : k + 1 < (weightsQ choices).length) :
    cumQ choices (k + 1) = cumQ choices k + (weightsQ choices).getD (k + 1) 0 := by
  rw [cumQ, cumQ, List.take_succ]
  rw [List.sum_append]
  congr 1
  rw [List.getD_eq_getElem?_getD, List.getElem?_eq_getElem h]
  simp

/-- C3 as amended: for nonnegative finite weights and a draw
`x = r * totalWeight` with `r ∈ [0, 1)`, the selected entry is the first
whose cumulative weight is `≥ x`; an entry of weight 0 is never selected
unless it is the first entry and the draw is exactly 0; in particular the
spec `200:1,500:0` always selects 200. -/
theorem weightedChoice_first_cumulative (choices : List (Int × JNum)) (r : DecTen)
    (hne : choices ≠ [])
    (hw : ∀ p ∈ choices, ∃ d : DecTen, p.2 = .fin d ∧ 0 ≤ d.m)
    (hr0 : 0 ≤ r.m) (hr1 : r.m < 10 ^ r.e) :
    (∃ j, j < choices.length ∧
      weightedChoice choices r = (choices.getD j (0, .nan)).1 ∧
      r.toRat * (weightsQ choices).sum ≤ cumQ choices j ∧
      (∀ k < j, cumQ choices k < r.toRat * (weightsQ choices).sum) ∧
      ((choices.getD j (0, .nan)).2.ratOr0 = 0 →
        j = 0 ∧ r.toRat * (weightsQ choices).sum = 0)) ∧
    (choices = [(200, .fin ⟨1, 0⟩), (500, .fin ⟨0, 0⟩)] →
      weightedChoice choices r = 200) := by
  have hr0q : (0 : ℚ) ≤ r.toRat := by
    rw [DecTen.toRat]
    exact div_nonneg (by exact_mod_cast hr0) (by positivity)
  have hr1q : r.toRat < 1 := by
    rw [DecTen.toRat, div_lt_one (by positivity)]
    exact_mod_cast hr1
  have hwfin : ∀ w ∈ choices.map Prod.snd, ∃ d, w = JNum.fin d := by
    intro w hwm
    rcases List.mem_map.mp hwm with ⟨p, hp, rfl⟩
    rcases hw p hp with ⟨d, hd, _⟩
    exact ⟨d, hd⟩
  have hwq : ∀ q ∈ weightsQ choices, 0 ≤ q := by
    intro q hq
    rcases List.mem_map.mp hq with ⟨w, hwm, rfl⟩
    rcases List.mem_map.mp hwm with ⟨p, hp, rfl⟩
    rcases hw p hp with ⟨d, hd, hd0⟩
    rw [hd]
    show (0 : ℚ) ≤ d.toRat
    rw [DecTen.toRat]
    exact div_nonneg (by exact_mod_cast hd0) (by positivity)
  have htotq : (0 : ℚ) ≤ (weightsQ choices).sum := List.sum_nonneg hwq
  have hxle : r.toRat * (weightsQ choices).sum ≤ (weightsQ choices).sum := by
    have := mul_le_mul_of_nonneg_right (le_of_lt hr1q) htotq
    simpa using this
  have hx0 : 0 ≤ r.toRat * (weightsQ choices).sum := mul_nonneg hr0q htotq
  rcases cumWeights_fin (choices.map Prod.snd) ⟨0, 0⟩ hwfin with
    ⟨cs, hmap, hlen, hval⟩
  have hlen' : cs.length = choices.length := by rw [hlen, List.length_map]
  have hcsne : cs ≠ [] := by
    intro h0
    rw [h0] at hlen'
    exact hne (List.length_eq_zero.mp hlen'.symm)
  have hcspos : 0 < cs.length := List.length_pos.mpr hcsne
  have hzeroRat : (⟨0, 0⟩ : DecTen).toRat = 0 := by simp [DecTen.toRat]
  have hvalq : ∀ j, j < choices.length →
      (cs.getD j ⟨0, 0⟩).toRat = cumQ choices j := by
    intro j hj
    rw [hval j (by rwa [List.length_map])]
    rw [hzeroRat, zero_add]
    rfl
  have htotrat : (cs.getLastD ⟨0, 0⟩).toRat = (weightsQ choices).sum := by
    rw [← getD_length_sub_one cs ⟨0, 0⟩ hcsne]
    rw [hvalq (cs.length - 1) (by omega)]
    rw [cumQ]
    have hwl : (weightsQ choices).length = choices.length := by
      simp [weightsQ]
    have hlen2 : cs.length - 1 + 1 = (weightsQ choices).length := by omega
    rw [hlen2, List.take_length]
  have hxq : (r.mul (cs.getLastD ⟨0, 0⟩)).toRat =
      r.toRat * (weightsQ choices).sum := by
    rw [DecTen.toRat_mul, htotrat]
  have hwc : weightedChoice choices r =
      (choices.map Prod.fst).getD
        ((firstLe (.fin (r.mul (cs.getLastD ⟨0, 0⟩))) (cs.map .fin)).getD 0) 0 := by
    simp only [weightedChoice]
    rw [hmap, getLastD_map_fin]
    rfl
  have hmain : ∃ j, j < choices.length ∧
      weightedChoice choices r = (choices.getD j (0, .nan)).1 ∧
      r.toRat * (weightsQ choices).sum ≤ cumQ choices j ∧
      (∀ k < j, cumQ choices k < r.toRat * (weightsQ choices).sum) ∧
      ((choices.getD j (0, .nan)).2.ratOr0 = 0 →
        j = 0 ∧ r.toRat * (weightsQ choices).sum = 0) := by
    cases hf : firstLe (.fin (r.mul (cs.getLastD ⟨0, 0⟩))) (cs.map .fin) with
    | none =>
      exfalso
      have hall := firstLe_fin_none _ cs hf (cs.length - 1) (by omega)
      rw [getD_length_sub_one cs ⟨0, 0⟩ hcsne] at hall
      rw [htotrat, hxq] at hall
      linarith
    | some j =>
      rcases firstLe_fin_some _ cs j hf with ⟨hjlen, hjle, hjlt⟩
      have hjlt' : j < choices.length := hlen' ▸ hjlen
      refine ⟨j, hjlt', ?_, ?_, ?_, ?_⟩
      · rw [hwc, hf]
        exact getD_map_fst choices j hjlt'
      · rw [← hvalq j hjlt', ← hxq]
        exact hjle
      · intro k hk
        rw [← hvalq k (by omega), ← hxq]
        exact hjlt k hk
      · intro hz
        have hwj : (weightsQ choices).getD j 0 = 0 := by
          rw [getD_weightsQ choices j hjlt']
          exact hz
        cases j with
        | zero =>
          refine ⟨rfl, ?_⟩
          have hwne : weightsQ choices ≠ [] := by
            intro h0
            have : (weightsQ choices).length = 0 := by rw [h0]; rfl
            simp [weightsQ] at this
            exact hne this
          have hc0 : cumQ choices 0 = 0 := by
            rw [cumQ, take_one_sum _ hwne]
            exact hwj
          have hle0 : r.toRat * (weightsQ choices).sum ≤ 0 := by
            rw [← hc0]
            rw [← hvalq 0 hjlt', ← hxq]
            exact hjle
          linarith
        | succ k =>
          exfalso
          have hwl : (weightsQ choices).length = choices.length := by
            simp [weightsQ]
          have hsucc := cumQ_succ choices k (by omega)
          rw [hwj, add_zero] at hsucc
          have h2 := hjlt k (Nat.lt_succ_self k)
          rw [hvalq k (by omega)] at h2
          rw [hvalq (k + 1) hjlt'] at hjle
          rw [hsucc] at hjle
          rw [hxq] at hjle h2
          linarith
  refine ⟨hmain, ?_⟩
  intro hcinst
  rcases hmain with ⟨j, hjlen, hval', hle', hlt', hz'⟩
  subst hcinst
  simp only [List.length_cons, List.length_nil] at hjlen
  cases j with
  | zero => simpa using hval'
  | succ j' =>
    cases j' with
    | zero =>
      exfalso
      have hzz : (([((200 : Int), JNum.fin ⟨1, 0⟩),
          (500, .fin ⟨0, 0⟩)]).getD 1 (0, .nan)).2.ratOr0 = 0 := by
        show DecTen.toRat ⟨0, 0⟩ = 0
        simp [DecTen.toRat]
      rcases hz' hzz with ⟨h10, _⟩
      cases h10
    | succ j'' =>
      exfalso
      omega

/-- Witness for C3 as amended, at the choices of `200:1,500:0` with the
draw 0.5. -/
theorem weightedChoice_first_cumulative_witness :
    weightedChoice [(200, .fin ⟨1, 0⟩), (500, .fin ⟨0, 0⟩)] ⟨5, 1⟩ = 200 :=
  (weightedChoice_first_cumulative [(200, .fin ⟨1, 0⟩), (500, .fin ⟨0, 0⟩)]
    ⟨5, 1⟩ (by decide)
    (by
      rintro p hp
      rcases List.mem_cons.mp hp with rfl | hp'
      · exact ⟨⟨1, 0⟩, rfl, by decide⟩
      · rcases List.mem_cons.mp hp' with rfl | hp''
        · exact ⟨⟨0, 0⟩, rfl, by decide⟩
        · cases hp'')
    (by decide) (by decide)).2 rfl

/-- Witness for C10 at the spec `200:abc,500:1` (unparsable weight `abc`)
with draw 0: accepted, and resolved to the first listed code 200. -/
theorem statusCodes_weights_unvalidated_witness :
    (handleStatusCodes ("200:abc,500:1".data) ⟨0, 0⟩).isErr = false ∧
    handleStatusCodes ("200:abc,500:1".data) ⟨0, 0⟩ = .ok 200 := by
  have h := statusCodes_weights_unvalidated ("200:abc,500:1".data) ⟨0, 0⟩
    (by decide) (by decide)
  exact ⟨h.1, h.2.2.2⟩
